import Mathlib

/-! CharRow (src/buffer/out/CharRow.cpp)

A shallow embedding of the console text buffer's `CharRow`: one line of glyph
cells together with the two line flags and the back reference to the owning
`ROW`.  Member functions become functions on an immutable `CharRow` value,
C++ exceptions become the `error` side of `Except Exception`, and `size_t`
columns are natural numbers.

`CharRow.cpp` is the only translation unit of the buffer that is available.
The cell type (`CharRowCell`), its double-byte attribute (`DbcsAttribute`),
the glyph proxy (`CharRowCellReference`), the overflow store
(`UnicodeStorage`) and the owning `ROW` are declared in headers that are not
part of the sources; they are modelled from the specification and each such
definition says so in its doc comment.
-/

namespace CharRowModel

/-! ## Collaborators that `CharRow.cpp` only uses -/

/-- One UTF-16 code unit (`wchar_t`). -/
abbrev wchar_t := Nat

/-- The space code unit (`UNICODE_SPACE` of `unicode.hpp`). -/
def UNICODE_SPACE : wchar_t := 0x20

/-- The C++ exceptions that can leave a `CharRow` member function.
`out_of_range` is thrown by `std::vector::at`, `E_INVALIDARG` by the
`THROW_HR_IF(E_INVALIDARG, ...)` guard of `GlyphAt`, `narrowing_error` by
`gsl::narrow`, `length_error` by a `std::vector` asked to hold more than
`max_size()` elements, and `not_found` by the overflow store when asked for a
key it does not hold. -/
inductive Exception where
  | out_of_range
  | E_INVALIDARG
  | narrowing_error
  | length_error
  | not_found
  deriving DecidableEq, Repr

/-- The result code of `Resize`: `S_OK`, or the failure code that `CATCH_RETURN`
produces from the exception it caught. -/
inductive HRESULT where
  | S_OK
  | failure (e : Exception)
  deriving DecidableEq, Repr

/-- Modelled from the spec: the double-byte role of a cell (`DbcsAttribute`,
declared in a header that is not part of the sources).  The spec gives the
three roles `Single`, `Leading` and `Trailing`. -/
inductive DbcsAttribute where
  | Single
  | Leading
  | Trailing
  deriving DecidableEq, Repr

/-- Modelled from the spec: `DbcsAttribute::IsTrailing`, the test `GetText` uses
to skip the right half of a double-width glyph. -/
def DbcsAttribute.IsTrailing : DbcsAttribute → Bool
  | .Trailing => true
  | _ => false

/-- Modelled from the spec: `DbcsAttribute::IsLeading`. -/
def DbcsAttribute.IsLeading : DbcsAttribute → Bool
  | .Leading => true
  | _ => false

/-- Modelled from the spec: the cell type `CharRowCell` (`CharRow::value_type`,
declared in a header that is not part of the sources).  The spec's data model
gives a cell its inline code units, its double-byte role and the flag that says
supplementary code units are kept in the overflow store. -/
structure CharRowCell where
  codeUnits : List wchar_t
  dbcsRole : DbcsAttribute
  hasOverflow : Bool
  deriving DecidableEq, Repr

/-- Modelled from the spec: the default-constructed cell (`value_type()`):
empty glyph, `Single` role, no overflow. -/
def CharRowCell.default : CharRowCell :=
  { codeUnits := [], dbcsRole := .Single, hasOverflow := false }

/-- Modelled from the spec: `CharRowCell::IsSpace`, "blank (space-equivalent)".
A cell is blank when nothing is kept for it in the overflow store and its
inline content is empty (the default cell) or the single space code unit. -/
def CharRowCell.IsSpace (c : CharRowCell) : Bool :=
  !c.hasOverflow && (c.codeUnits == [] || c.codeUnits == [UNICODE_SPACE])

/-- Modelled from the spec: `CharRowCell::Reset`, "resets one cell to default
(empty, Single role, no overflow)". -/
def CharRowCell.Reset (_c : CharRowCell) : CharRowCell :=
  CharRowCell.default

/-- Modelled from the spec: `CharRowCell::EraseChars`, "erases only the glyph
content of a cell (code units + overflow flag) while leaving its double-byte
role untouched". -/
def CharRowCell.EraseChars (c : CharRowCell) : CharRowCell :=
  { c with codeUnits := [], hasOverflow := false }

/-- Modelled from the spec: `CharRowCell::DbcsAttr`, the cell's role. -/
def CharRowCell.DbcsAttr (c : CharRowCell) : DbcsAttribute :=
  c.dbcsRole

/-- The Windows `COORD` pair of `SHORT`s used as key of the overflow store. -/
structure COORD where
  X : Int
  Y : Int
  deriving DecidableEq, Repr

/-- Modelled from the spec: the overflow store (`UnicodeStorage`, declared in a
header that is not part of the sources): a keyed store from
(column, row identity) to the supplementary code units of a glyph. -/
structure UnicodeStorage where
  _map : List (COORD × List wchar_t)
  deriving DecidableEq, Repr

/-- Modelled from the spec: `Get(column, ownerIdentity)` of the overflow store,
which "fails with a not-found kind if absent". -/
def UnicodeStorage.GetText (s : UnicodeStorage) (key : COORD) :
    Except Exception (List wchar_t) :=
  match s._map.lookup key with
  | some units => .ok units
  | none => .error .not_found

/-- Modelled from the spec: the owning `ROW` (`Row.hpp` is not part of the
sources).  `CharRow.cpp` only reads the row identity (`GetId`) and reaches the
overflow store (`GetUnicodeStorage`) through it. -/
structure ROW where
  _id : Int
  _storage : UnicodeStorage
  deriving DecidableEq, Repr

/-- Modelled from the spec: `ROW::GetId`, the identity of the owning row. -/
def ROW.GetId (row : ROW) : Int := row._id

/-- Modelled from the spec: `ROW::GetUnicodeStorage`. -/
def ROW.GetUnicodeStorage (row : ROW) : UnicodeStorage := row._storage

/-! ## `std::vector` and `gsl::narrow` -/

/-- The checked element access `std::vector::at`: throws `std::out_of_range`
when `pos` is not below `size()`. -/
def vector_at {α : Type} (v : List α) (pos : Nat) : Except Exception α :=
  match v[pos]? with
  | some x => .ok x
  | none => .error .out_of_range

/-- The new contents of a vector after `std::vector::resize(count, value)`:
the first `count` elements are kept and, when `count` exceeds the old size,
copies of `value` are appended. -/
def vector_resize {α : Type} (v : List α) (count : Nat) (value : α) : List α :=
  v.take count ++ List.replicate (count - v.length) value

/-- The largest value of a `SHORT`. -/
def SHORT_MAX : Nat := 32767

/-- The checked conversion `gsl::narrow<SHORT>` of a `size_t`: throws
`narrowing_error` when the value does not fit. -/
def narrow_SHORT (u : Nat) : Except Exception Int :=
  if u ≤ SHORT_MAX then .ok (Int.ofNat u) else .error .narrowing_error

/-! ## `CharRow` -/

/-- The data members of `CharRow`.  `_pParent` stands for the `ROW` the pointer
refers to; no function of `CharRow.cpp` writes through it. -/
structure CharRow where
  _wrapForced : Bool
  _doubleBytePadded : Bool
  _data : List CharRowCell
  _pParent : ROW
  deriving DecidableEq, Repr

/-- Constructor `CharRow::CharRow(rowWidth, pParent)` (named `new` here, since a
declaration `CharRow.CharRow` would shadow the type inside its own namespace).
Building the vector throws when `rowWidth` exceeds the vector's `max_size()`. -/
def CharRow.new (max_size : Nat) (rowWidth : Nat) (pParent : ROW) :
    Except Exception CharRow :=
  if rowWidth ≤ max_size then
    .ok { _wrapForced := false
          _doubleBytePadded := false
          _data := List.replicate rowWidth CharRowCell.default
          _pParent := pParent }
  else .error .length_error

/-- Member `CharRow::swap`: exchanges the four data members of the two rows. -/
def CharRow.swap (a other : CharRow) : CharRow × CharRow :=
  ({ _wrapForced := other._wrapForced
     _doubleBytePadded := other._doubleBytePadded
     _data := other._data
     _pParent := other._pParent },
   { _wrapForced := a._wrapForced
     _doubleBytePadded := a._doubleBytePadded
     _data := a._data
     _pParent := a._pParent })

/-- The free function `swap(CharRow&, CharRow&)`, which calls `a.swap(b)`. -/
def swap (a b : CharRow) : CharRow × CharRow :=
  a.swap b

/-- Member `CharRow::SetWrapForced`. -/
def CharRow.SetWrapForced (r : CharRow) (wrapForced : Bool) : CharRow :=
  { r with _wrapForced := wrapForced }

/-- Member `CharRow::WasWrapForced`. -/
def CharRow.WasWrapForced (r : CharRow) : Bool :=
  r._wrapForced

/-- Member `CharRow::SetDoubleBytePadded`. -/
def CharRow.SetDoubleBytePadded (r : CharRow) (doubleBytePadded : Bool) : CharRow :=
  { r with _doubleBytePadded := doubleBytePadded }

/-- Member `CharRow::WasDoubleBytePadded`. -/
def CharRow.WasDoubleBytePadded (r : CharRow) : Bool :=
  r._doubleBytePadded

/-- Member `CharRow::size`. -/
def CharRow.size (r : CharRow) : Nat :=
  r._data.length

/-- Member `CharRow::Reset`: every cell is reset, then both flags are cleared. -/
def CharRow.Reset (r : CharRow) : CharRow :=
  { r with
    _data := r._data.map CharRowCell.Reset
    _wrapForced := false
    _doubleBytePadded := false }

/-- Member `CharRow::Resize`.  `_data.resize(newSize, insertVals)` with
`insertVals` a default cell; shrinking never throws, growing beyond the
vector's `max_size()` throws `std::length_error`, which `CATCH_RETURN` turns
into a failure code while the vector keeps its contents. -/
def CharRow.Resize (max_size : Nat) (r : CharRow) (newSize : Nat) : HRESULT × CharRow :=
  if newSize ≤ r._data.length ∨ newSize ≤ max_size then
    (.S_OK, { r with _data := vector_resize r._data newSize CharRowCell.default })
  else
    (.failure .length_error, r)

/-- The loop of `MeasureLeft`: `cells` are the cells from the iterator `it` to
`cend()`, `pos` is `it - cbegin()`. -/
def CharRow.MeasureLeft.loop : List CharRowCell → Nat → Nat
  | [], pos => pos
  | cell :: rest, pos =>
    if cell.IsSpace then CharRow.MeasureLeft.loop rest (pos + 1) else pos

/-- Member `CharRow::MeasureLeft`. -/
def CharRow.MeasureLeft (r : CharRow) : Nat :=
  CharRow.MeasureLeft.loop r._data 0

/-- The loop of `MeasureRight`: `cells` are the cells from the reverse iterator
`it` to `crend()`; the result is `crend() - it` when the loop stops. -/
def CharRow.MeasureRight.loop : List CharRowCell → Nat
  | [] => 0
  | cell :: rest =>
    if cell.IsSpace then CharRow.MeasureRight.loop rest else (cell :: rest).length

/-- Member `CharRow::MeasureRight`: the scan starts at `crbegin()`, that is at
the last cell, and walks towards the first one. -/
def CharRow.MeasureRight (r : CharRow) : Nat :=
  CharRow.MeasureRight.loop r._data.reverse

/-- Member `CharRow::ClearCell`. -/
def CharRow.ClearCell (r : CharRow) (column : Nat) : Except Exception CharRow := do
  let cell ← vector_at r._data column
  pure { r with _data := r._data.set column cell.Reset }

/-- The range-for loop of `ContainsText` over the cells that are left. -/
def CharRow.ContainsText.loop : List CharRowCell → Bool
  | [] => false
  | cell :: rest =>
    if !cell.IsSpace then true else CharRow.ContainsText.loop rest

/-- Member `CharRow::ContainsText`. -/
def CharRow.ContainsText (r : CharRow) : Bool :=
  CharRow.ContainsText.loop r._data

/-- Member `CharRow::DbcsAttrAt`, const form. -/
def CharRow.DbcsAttrAt_const (r : CharRow) (column : Nat) : Except Exception DbcsAttribute := do
  let cell ← vector_at r._data column
  pure cell.DbcsAttr

/-- Member `CharRow::DbcsAttrAt`, mutable form: it forwards to the const form
and casts the constness of the result away. -/
def CharRow.DbcsAttrAt (r : CharRow) (column : Nat) : Except Exception DbcsAttribute :=
  r.DbcsAttrAt_const column

/-- Member `CharRow::ClearGlyph`. -/
def CharRow.ClearGlyph (r : CharRow) (column : Nat) : Except Exception CharRow := do
  let cell ← vector_at r._data column
  pure { r with _data := r._data.set column cell.EraseChars }

/-- The glyph proxy `CharRowCellReference` (`CharRow::reference`): the row it is
bound to and the column. -/
structure CharRowCellReference where
  _parent : CharRow
  _index : Nat
  deriving DecidableEq, Repr

/-- Member `CharRow::GlyphAt`, const form. -/
def CharRow.GlyphAt_const (r : CharRow) (column : Nat) : Except Exception CharRowCellReference :=
  if column ≥ r._data.length then .error .E_INVALIDARG
  else .ok { _parent := r, _index := column }

/-- Member `CharRow::GlyphAt`, mutable form. -/
def CharRow.GlyphAt (r : CharRow) (column : Nat) : Except Exception CharRowCellReference :=
  if column ≥ r._data.length then .error .E_INVALIDARG
  else .ok { _parent := r, _index := column }

/-- Member `CharRow::GetUnicodeStorage`. -/
def CharRow.GetUnicodeStorage (r : CharRow) : UnicodeStorage :=
  r._pParent.GetUnicodeStorage

/-- Member `CharRow::GetStorageKey`. -/
def CharRow.GetStorageKey (r : CharRow) (column : Nat) : Except Exception COORD := do
  let x ← narrow_SHORT column
  pure { X := x, Y := r._pParent.GetId }

/-- Modelled from the spec: the code units a `CharRowCellReference` yields
between `begin()` and `end()` (`CharRowCellReference.cpp` is not part of the
sources): "the inline code units followed by, if hasOverflow is set, the
sequence fetched from the Overflow Store under key (column, ownerIdentity)". -/
def CharRowCellReference.glyph (ref : CharRowCellReference) :
    Except Exception (List wchar_t) := do
  let cell ← vector_at ref._parent._data ref._index
  if cell.hasOverflow then
    let key ← ref._parent.GetStorageKey ref._index
    let extra ← ref._parent.GetUnicodeStorage.GetText key
    pure (cell.codeUnits ++ extra)
  else
    pure cell.codeUnits

/-- The loop of `GetTextRaw`: `todo` is the number of iterations that are left
(`_data.size() - i`), `i` the loop counter and `wstr` the string built so far. -/
def CharRow.GetTextRaw.loop (r : CharRow) : Nat → Nat → List wchar_t →
    Except Exception (List wchar_t)
  | 0, _, wstr => pure wstr
  | todo + 1, i, wstr => do
    let glyph ← r.GlyphAt_const i
    let units ← glyph.glyph
    CharRow.GetTextRaw.loop r todo (i + 1) (wstr ++ units)

/-- Member `CharRow::GetTextRaw`. -/
def CharRow.GetTextRaw (r : CharRow) : Except Exception (List wchar_t) :=
  CharRow.GetTextRaw.loop r r._data.length 0 []

/-- The loop of `GetText`: as for `GetTextRaw`, but the glyph of a column is
read only when the column's attribute is not trailing. -/
def CharRow.GetText.loop (r : CharRow) : Nat → Nat → List wchar_t →
    Except Exception (List wchar_t)
  | 0, _, wstr => pure wstr
  | todo + 1, i, wstr => do
    let glyph ← r.GlyphAt_const i
    let attr ← r.DbcsAttrAt_const i
    if !attr.IsTrailing then
      let units ← glyph.glyph
      CharRow.GetText.loop r todo (i + 1) (wstr ++ units)
    else
      CharRow.GetText.loop r todo (i + 1) wstr

/-- Member `CharRow::GetText`. -/
def CharRow.GetText (r : CharRow) : Except Exception (List wchar_t) :=
  CharRow.GetText.loop r r._data.length 0 []

/-- The role test of `GetText` at a column of the row:
`DbcsAttrAt(column).IsTrailing()`. -/
def CharRow.columnIsTrailing (r : CharRow) (column : Nat) : Bool :=
  match r._data[column]? with
  | some cell => cell.DbcsAttr.IsTrailing
  | none => false

/-- The glyph that `GlyphAt(column)` presents, as the code units between its
`begin()` and `end()`. -/
def CharRow.glyphText (r : CharRow) (column : Nat) : Except Exception (List wchar_t) :=
  CharRowCellReference.glyph { _parent := r, _index := column }

/-! ## Calls on a row object

The mutating members return nothing and change the object in place.  Here a
call is the pair of its outcome and the row the object holds when the call is
over, so that what a throwing call leaves behind can be stated. -/

/-- The call `ClearCell(column)`.  `_data.at(column)` is evaluated first; when it
throws, `Reset` is not reached and nothing has been written. -/
def CharRow.ClearCell_call (r : CharRow) (column : Nat) : Except Exception Unit × CharRow :=
  match vector_at r._data column with
  | .error e => (.error e, r)
  | .ok cell => (.ok (), { r with _data := r._data.set column cell.Reset })

/-- The call `ClearGlyph(column)`.  `_data.at(column)` is evaluated first; when
it throws, `EraseChars` is not reached and nothing has been written. -/
def CharRow.ClearGlyph_call (r : CharRow) (column : Nat) : Except Exception Unit × CharRow :=
  match vector_at r._data column with
  | .error e => (.error e, r)
  | .ok cell => (.ok (), { r with _data := r._data.set column cell.EraseChars })

/-- The call `DbcsAttrAt(column)`: it reads `_data.at(column)` and writes to no
member. -/
def CharRow.DbcsAttrAt_call (r : CharRow) (column : Nat) :
    Except Exception DbcsAttribute × CharRow :=
  (r.DbcsAttrAt column, r)

/-- The call `GlyphAt(column)`: it compares `column` with `_data.size()` and
builds the proxy; it writes to no member. -/
def CharRow.GlyphAt_call (r : CharRow) (column : Nat) :
    Except Exception CharRowCellReference × CharRow :=
  (r.GlyphAt column, r)

/-! ## `gsl::narrow`, step by step -/

/-- The conversion `static_cast<SHORT>` of a `size_t`: the low 16 bits, read as
a two's complement number. -/
def static_cast_SHORT (u : Nat) : Int :=
  if u % 65536 < 32768 then Int.ofNat (u % 65536) else Int.ofNat (u % 65536) - 65536

/-- The conversion `static_cast<size_t>` of a `SHORT` (64-bit `size_t`): the
value modulo `2^64`. -/
def static_cast_size_t (t : Int) : Nat :=
  (t % 18446744073709551616).toNat

/-- The body of `gsl::narrow<SHORT>(u)` for a `size_t` argument: cast, throw when
casting back does not give `u`, throw when the sign changed, return the cast
value. -/
def gsl_narrow_SHORT (u : Nat) : Except Exception Int :=
  if static_cast_size_t (static_cast_SHORT u) ≠ u then .error .narrowing_error
  else if static_cast_SHORT u < 0 then .error .narrowing_error
  else .ok (static_cast_SHORT u)

/-- The code units the glyph of a column contributes to a text: what
`glyphText` returns, and nothing when reading the glyph throws. -/
def CharRow.glyphOrEmpty (r : CharRow) (column : Nat) : List wchar_t :=
  match r.glyphText column with
  | .ok units => units
  | .error _ => []

/-! ## The pairing of double-width halves -/

/-- The double-byte roles of the row, by column. -/
def CharRow.roles (r : CharRow) : List DbcsAttribute :=
  r._data.map CharRowCell.DbcsAttr

/-- The pairing property at column `i`, in the words of the spec: a `Trailing`
cell is immediately preceded by a `Leading` cell, and a `Leading` cell is
immediately followed by a `Trailing` cell (so it is not the last cell). -/
def pairedAt (roles : List DbcsAttribute) (i : Nat) : Bool :=
  match roles[i]? with
  | some .Trailing => i != 0 && roles[i - 1]? == some .Leading
  | some .Leading => roles[i + 1]? == some .Trailing
  | _ => true

/-- The pairing property of a row: it holds at every column. -/
def CharRow.IsPaired (r : CharRow) : Bool :=
  (List.range r.size).all (pairedAt r.roles)

/-- The pairing property of a list of roles, as a proposition over all
positions. -/
def PairedRoles (roles : List DbcsAttribute) : Prop :=
  ∀ i, (roles[i]? = some .Trailing → i ≠ 0 ∧ roles[i - 1]? = some .Leading)
    ∧ (roles[i]? = some .Leading → roles[i + 1]? = some .Trailing)

/-- Whether the overflow store holds an entry under `key`. -/
def UnicodeStorage.contains (s : UnicodeStorage) (key : COORD) : Bool :=
  (s._map.lookup key).isSome

/-! ## Rows used as concrete inputs -/

/-- An owner with identity 7 and an empty overflow store. -/
def exampleOwner : ROW := { _id := 7, _storage := { _map := [] } }

/-- A cell holding the single inline code unit `u`. -/
def glyphCell (u : wchar_t) : CharRowCell :=
  { codeUnits := [u], dbcsRole := .Single, hasOverflow := false }

/-- A row over `exampleOwner` with the given cells and both flags clear. -/
def rowOf (cells : List CharRowCell) : CharRow :=
  { _wrapForced := false, _doubleBytePadded := false, _data := cells, _pParent := exampleOwner }

/-- The all-blank row of width 5. -/
def blankRow5 : CharRow :=
  rowOf (List.replicate 5 CharRowCell.default)

/-- The row `blank, blank, 'a', 'b', blank`. -/
def rowAB : CharRow :=
  rowOf [CharRowCell.default, glyphCell UNICODE_SPACE, glyphCell 97, glyphCell 98,
    CharRowCell.default]

/-- The left half of a double-width glyph with inline code units `g`. -/
def leadingCell (g : List wchar_t) : CharRowCell :=
  { codeUnits := g, dbcsRole := .Leading, hasOverflow := false }

/-- The right half of a double-width glyph, storing the code units `g`. -/
def trailingCell (g : List wchar_t) : CharRowCell :=
  { codeUnits := g, dbcsRole := .Trailing, hasOverflow := false }

/-- The row holding the double-width glyph U+4E00 in columns 0 and 1, followed
by three blank columns. -/
def rowWide : CharRow :=
  rowOf [leadingCell [0x4E00], trailingCell [0x4E00], CharRowCell.default,
    glyphCell UNICODE_SPACE, CharRowCell.default]

/-- A row whose owner keeps the combining mark U+0301 in the overflow store for
column 0: that column holds a double-width glyph made of `e` inline and the
mark out of line, column 1 is its trailing half, column 2 is blank. -/
def rowOverflow : CharRow :=
  { _wrapForced := false
    _doubleBytePadded := false
    _data := [{ codeUnits := [0x65], dbcsRole := .Leading, hasOverflow := true },
      trailingCell [0x65], CharRowCell.default]
    _pParent := { _id := 7, _storage := { _map := [({ X := 0, Y := 7 }, [0x301])] } } }

/-- The row of width 2 that holds one double-width glyph. -/
def rowPair : CharRow :=
  rowOf [leadingCell [0x4E00], trailingCell [0x4E00]]

/-- A row whose trailing cell has the overflow flag set although the store of
its owner holds nothing for it. -/
def rowStaleTrailing : CharRow :=
  rowOf [leadingCell [0x4E00],
    { codeUnits := [0x4E00], dbcsRole := .Trailing, hasOverflow := true }]

/-! ## Scanning a list while a test holds -/

theorem takeWhile_length_le_length {α : Type} (p : α → Bool) (l : List α) :
    (l.takeWhile p).length ≤ l.length := by
  induction l with
  | nil => simp
  | cons a t ih =>
    by_cases h : p a = true
    · simp [List.takeWhile_cons, h]; exact ih
    · simp [List.takeWhile_cons, h]

theorem takeWhile_holds_before {α : Type} (p : α → Bool) (l : List α) (j : Nat)
    (hj : j < (l.takeWhile p).length) : ∃ c, l[j]? = some c ∧ p c = true := by
  induction l generalizing j with
  | nil => simp at hj
  | cons a t ih =>
    by_cases h : p a = true
    · cases j with
      | zero => exact ⟨a, by simp, h⟩
      | succ k =>
        simp [List.takeWhile_cons, h] at hj
        simpa using ih k hj
    · simp [List.takeWhile_cons, h] at hj

theorem takeWhile_fails_at_stop {α : Type} (p : α → Bool) (l : List α)
    (h : (l.takeWhile p).length < l.length) :
    ∃ c, l[(l.takeWhile p).length]? = some c ∧ p c = false := by
  induction l with
  | nil => simp at h
  | cons a t ih =>
    by_cases hp : p a = true
    · simp [List.takeWhile_cons, hp] at h ⊢
      exact ih h
    · exact ⟨a, by simp [List.takeWhile_cons, hp], by simpa using hp⟩

theorem takeWhile_length_le_of_fails {α : Type} (p : α → Bool) (l : List α) (i : Nat) (c : α)
    (hi : l[i]? = some c) (hc : p c = false) : (l.takeWhile p).length ≤ i := by
  by_contra hlt
  obtain ⟨d, hd, hpd⟩ := takeWhile_holds_before p l i (by omega)
  rw [hi] at hd
  cases hd
  rw [hc] at hpd
  cases hpd

theorem takeWhile_length_eq_of_all {α : Type} (p : α → Bool) (l : List α)
    (h : ∀ c ∈ l, p c = true) : (l.takeWhile p).length = l.length := by
  induction l with
  | nil => simp
  | cons a t ih =>
    have ha : p a = true := h a (by simp)
    simp [List.takeWhile_cons, ha]
    exact ih (fun c hc => h c (by simp [hc]))

/-! ## The scans of `CharRow` -/

theorem MeasureLeft_loop_eq (cells : List CharRowCell) (pos : Nat) :
    CharRow.MeasureLeft.loop cells pos
      = pos + (cells.takeWhile CharRowCell.IsSpace).length := by
  induction cells generalizing pos with
  | nil => simp [CharRow.MeasureLeft.loop]
  | cons a t ih =>
    by_cases h : a.IsSpace = true
    · simp [CharRow.MeasureLeft.loop, List.takeWhile_cons, h, ih]; omega
    · simp [CharRow.MeasureLeft.loop, List.takeWhile_cons, h]

theorem MeasureLeft_eq (r : CharRow) :
    r.MeasureLeft = (r._data.takeWhile CharRowCell.IsSpace).length := by
  simp [CharRow.MeasureLeft, MeasureLeft_loop_eq]

/-- C1: `MeasureLeft` returns the smallest column whose cell is not blank: it is
at most `size()`, every column before it is blank, the cell at it (when it is a
column of the row) is not blank, no column with a non-blank cell lies before
it, and it is `size()` when every cell is blank (so also for the row of width
0).  The all-blank row of width 5 gives 5 and `blank, blank, 'a', 'b', blank`
gives 2. -/
theorem C1_MeasureLeft_first_nonblank (r : CharRow) :
    r.MeasureLeft ≤ r.size
    ∧ (∀ j, j < r.MeasureLeft → ∃ cell, r._data[j]? = some cell ∧ cell.IsSpace = true)
    ∧ (r.MeasureLeft < r.size →
        ∃ cell, r._data[r.MeasureLeft]? = some cell ∧ cell.IsSpace = false)
    ∧ (∀ i cell, r._data[i]? = some cell → cell.IsSpace = false → r.MeasureLeft ≤ i)
    ∧ ((∀ cell ∈ r._data, cell.IsSpace = true) → r.MeasureLeft = r.size)
    ∧ (r.size = 0 → r.MeasureLeft = 0)
    ∧ blankRow5.MeasureLeft = 5
    ∧ rowAB.MeasureLeft = 2 := by
  rw [MeasureLeft_eq]
  have hle := takeWhile_length_le_length CharRowCell.IsSpace r._data
  refine ⟨hle, ?_, ?_, ?_, ?_, ?_, by decide, by decide⟩
  · exact fun j hj => takeWhile_holds_before _ _ j hj
  · exact fun h => takeWhile_fails_at_stop _ _ h
  · exact fun i cell hi hc => takeWhile_length_le_of_fails _ _ i cell hi hc
  · exact fun h => takeWhile_length_eq_of_all _ _ h
  · intro h
    simp only [CharRow.size] at h hle
    omega


theorem MeasureRight_loop_eq (cells : List CharRowCell) :
    CharRow.MeasureRight.loop cells
      = cells.length - (cells.takeWhile CharRowCell.IsSpace).length := by
  induction cells with
  | nil => simp [CharRow.MeasureRight.loop]
  | cons a t ih =>
    by_cases h : a.IsSpace = true
    · simp [CharRow.MeasureRight.loop, List.takeWhile_cons, h, ih]
    · simp [CharRow.MeasureRight.loop, List.takeWhile_cons, h]

theorem MeasureRight_eq (r : CharRow) :
    r.MeasureRight
      = r._data.length - (r._data.reverse.takeWhile CharRowCell.IsSpace).length := by
  simp [CharRow.MeasureRight, MeasureRight_loop_eq]

theorem reverse_takeWhile_length_le (r : CharRow) :
    (r._data.reverse.takeWhile CharRowCell.IsSpace).length ≤ r._data.length := by
  have h := takeWhile_length_le_length CharRowCell.IsSpace r._data.reverse
  simpa using h

/-- C2: `MeasureRight` returns one past the largest column whose cell is not
blank: it is at most `size()`, every cell at a column from the result on is
blank, when the result is positive the cell just before it is not blank, every
column with a non-blank cell lies before it, and it is 0 when every cell is
blank.  The row `blank, blank, 'a', 'b', blank` gives 4. -/
theorem C2_MeasureRight_past_last_nonblank (r : CharRow) :
    r.MeasureRight ≤ r.size
    ∧ (∀ j cell, r.MeasureRight ≤ j → r._data[j]? = some cell → cell.IsSpace = true)
    ∧ (0 < r.MeasureRight →
        ∃ cell, r._data[r.MeasureRight - 1]? = some cell ∧ cell.IsSpace = false)
    ∧ (∀ i cell, r._data[i]? = some cell → cell.IsSpace = false → i + 1 ≤ r.MeasureRight)
    ∧ ((∀ cell ∈ r._data, cell.IsSpace = true) → r.MeasureRight = 0)
    ∧ rowAB.MeasureRight = 4 := by
  rw [MeasureRight_eq]
  have hk := reverse_takeWhile_length_le r
  refine ⟨by simp [CharRow.size], ?_, ?_, ?_, ?_, by decide⟩
  · intro j cell hj hcell
    have hjlt : j < r._data.length := by
      by_contra hge
      rw [List.getElem?_eq_none (by omega)] at hcell
      cases hcell
    obtain ⟨c, hc, hp⟩ := takeWhile_holds_before CharRowCell.IsSpace r._data.reverse
      (r._data.length - 1 - j) (by omega)
    rw [List.getElem?_reverse (by omega)] at hc
    have hidx : r._data.length - 1 - (r._data.length - 1 - j) = j := by omega
    rw [hidx, hcell] at hc
    cases hc
    exact hp
  · intro hpos
    obtain ⟨c, hc, hp⟩ := takeWhile_fails_at_stop CharRowCell.IsSpace r._data.reverse
      (by simp only [List.length_reverse]; omega)
    rw [List.getElem?_reverse (by omega)] at hc
    have hidx : r._data.length - 1 - (r._data.reverse.takeWhile CharRowCell.IsSpace).length
        = r._data.length - (r._data.reverse.takeWhile CharRowCell.IsSpace).length - 1 := by
      omega
    rw [hidx] at hc
    exact ⟨c, hc, hp⟩
  · intro i cell hcell hp
    have hilt : i < r._data.length := by
      by_contra hge
      rw [List.getElem?_eq_none (by omega)] at hcell
      cases hcell
    have hrev : r._data.reverse[r._data.length - 1 - i]? = some cell := by
      rw [List.getElem?_reverse (by omega)]
      have hidx : r._data.length - 1 - (r._data.length - 1 - i) = i := by omega
      rw [hidx]
      exact hcell
    have hle := takeWhile_length_le_of_fails CharRowCell.IsSpace r._data.reverse _ cell hrev hp
    omega
  · intro hall
    have hfull := takeWhile_length_eq_of_all CharRowCell.IsSpace r._data.reverse
      (fun c hc => hall c (by simpa using hc))
    rw [hfull]
    simp

/-! ## Text extraction -/

theorem GlyphAt_const_of_lt (r : CharRow) (i : Nat) (h : i < r._data.length) :
    r.GlyphAt_const i = .ok { _parent := r, _index := i } := by
  simp [CharRow.GlyphAt_const, h]

theorem DbcsAttrAt_const_of_getElem (r : CharRow) (i : Nat) (cell : CharRowCell)
    (h : r._data[i]? = some cell) : r.DbcsAttrAt_const i = .ok cell.DbcsAttr := by
  simp [CharRow.DbcsAttrAt_const, vector_at, h]

theorem columnIsTrailing_of_getElem (r : CharRow) (i : Nat) (cell : CharRowCell)
    (h : r._data[i]? = some cell) : r.columnIsTrailing i = cell.DbcsAttr.IsTrailing := by
  simp [CharRow.columnIsTrailing, h]

theorem GetText_loop_eq (r : CharRow) (todo i : Nat) (wstr : List wchar_t)
    (h : i + todo ≤ r._data.length) :
    CharRow.GetText.loop r todo i wstr
      = (((List.range' i todo).filter (fun c => !r.columnIsTrailing c)).mapM
            r.glyphText).map (fun gs => wstr ++ gs.flatten) := by
  induction todo generalizing i wstr with
  | zero =>
    simp only [CharRow.GetText.loop, List.range'_zero, List.filter_nil, List.mapM_nil]
    simp [Except.map, pure, Except.pure]
  | succ n ih =>
    have hi : i < r._data.length := by omega
    obtain ⟨cell, hcell⟩ : ∃ cell, r._data[i]? = some cell :=
      ⟨r._data[i], List.getElem?_eq_getElem hi⟩
    have hrec := fun w => ih (i + 1) w (by omega)
    rw [CharRow.GetText.loop, GlyphAt_const_of_lt r i hi,
      DbcsAttrAt_const_of_getElem r i cell hcell, List.range'_succ, List.filter_cons,
      columnIsTrailing_of_getElem r i cell hcell]
    cases htr : cell.DbcsAttr.IsTrailing with
    | true =>
      simp only [bind, Except.bind, htr, Bool.not_true, Bool.false_eq_true, if_false]
      exact hrec wstr
    | false =>
      simp only [bind, Except.bind, htr, Bool.not_false, if_true, List.mapM_cons]
      have hgt : CharRowCellReference.glyph { _parent := r, _index := i } = r.glyphText i :=
        rfl
      rw [hgt]
      cases hg : r.glyphText i with
      | error e => simp [Except.map, bind, Except.bind]
      | ok units =>
        simp only [hrec, bind, Except.bind]
        cases ((List.range' (i + 1) n).filter (fun c => !r.columnIsTrailing c)).mapM
            r.glyphText with
        | error e => simp [Except.map]
        | ok gs => simp [Except.map, pure, Except.pure]

theorem GetTextRaw_loop_eq (r : CharRow) (todo i : Nat) (wstr : List wchar_t)
    (h : i + todo ≤ r._data.length) :
    CharRow.GetTextRaw.loop r todo i wstr
      = ((List.range' i todo).mapM r.glyphText).map (fun gs => wstr ++ gs.flatten) := by
  induction todo generalizing i wstr with
  | zero =>
    simp only [CharRow.GetTextRaw.loop, List.range'_zero, List.mapM_nil]
    simp [Except.map, pure, Except.pure]
  | succ n ih =>
    have hi : i < r._data.length := by omega
    have hrec := fun w => ih (i + 1) w (by omega)
    have hgt : CharRowCellReference.glyph { _parent := r, _index := i } = r.glyphText i :=
      rfl
    rw [CharRow.GetTextRaw.loop, GlyphAt_const_of_lt r i hi, List.range'_succ]
    simp only [bind, Except.bind, List.mapM_cons]
    rw [hgt]
    cases hg : r.glyphText i with
    | error e => simp [Except.map]
    | ok units =>
      simp only [hrec]
      cases (List.range' (i + 1) n).mapM r.glyphText with
      | error e => simp [Except.map]
      | ok gs => simp [Except.map, pure, Except.pure]

theorem glyphText_of_inline (r : CharRow) (i : Nat) (cell : CharRowCell)
    (h : r._data[i]? = some cell) (hov : cell.hasOverflow = false) :
    r.glyphText i = .ok cell.codeUnits := by
  simp [CharRow.glyphText, CharRowCellReference.glyph, vector_at, h, hov, bind, Except.bind,
    pure, Except.pure]

theorem IsSpace_hasOverflow (cell : CharRowCell) (h : cell.IsSpace = true) :
    cell.hasOverflow = false := by
  simp [CharRowCell.IsSpace] at h
  exact h.1

theorem IsSpace_codeUnits (cell : CharRowCell) (h : cell.IsSpace = true) :
    ∀ u ∈ cell.codeUnits, u = UNICODE_SPACE := by
  simp [CharRowCell.IsSpace] at h
  intro u hu
  rcases h.2 with h0 | h1
  · rw [h0] at hu; cases hu
  · rw [h1] at hu; simpa using hu

/-- The loop of `GetText` from column `i` on, when no cell from there on that is
read keeps code units in the overflow store. -/
theorem GetText_loop_inline (r : CharRow) (todo i : Nat) (wstr : List wchar_t)
    (h : i + todo = r._data.length)
    (hov : ∀ cell ∈ r._data.drop i, cell.DbcsAttr.IsTrailing = false → cell.hasOverflow = false) :
    CharRow.GetText.loop r todo i wstr
      = .ok (wstr ++ ((r._data.drop i).filter (fun cell => !cell.DbcsAttr.IsTrailing)).flatMap
          CharRowCell.codeUnits) := by
  induction todo generalizing i wstr with
  | zero =>
    have hdrop : r._data.drop i = [] := List.drop_eq_nil_of_le (by omega)
    simp [CharRow.GetText.loop, hdrop, pure, Except.pure]
  | succ n ih =>
    have hi : i < r._data.length := by omega
    have hdrop : r._data.drop i = r._data[i] :: r._data.drop (i + 1) :=
      List.drop_eq_getElem_cons hi
    have hcell : r._data[i]? = some r._data[i] := List.getElem?_eq_getElem hi
    have hrec := fun w => ih (i + 1) w (by omega)
      (fun cell hmem => hov cell (by rw [hdrop]; exact List.mem_cons_of_mem _ hmem))
    have hgt : CharRowCellReference.glyph { _parent := r, _index := i } = r.glyphText i :=
      rfl
    rw [CharRow.GetText.loop, GlyphAt_const_of_lt r i hi,
      DbcsAttrAt_const_of_getElem r i _ hcell, hdrop, List.filter_cons]
    cases htr : (r._data[i]).DbcsAttr.IsTrailing with
    | true =>
      simp only [bind, Except.bind, htr, Bool.not_true, Bool.false_eq_true, if_false]
      exact hrec wstr
    | false =>
      have hinl := glyphText_of_inline r i _ hcell
        (hov _ (by rw [hdrop]; exact List.mem_cons_self _ _) htr)
      simp only [bind, Except.bind, htr, Bool.not_false, if_true]
      rw [hgt, hinl]
      simp only [hrec]
      simp [List.flatMap_cons]

/-- The loop of `GetTextRaw` from column `i` on, when no cell from there on
keeps code units in the overflow store. -/
theorem GetTextRaw_loop_inline (r : CharRow) (todo i : Nat) (wstr : List wchar_t)
    (h : i + todo = r._data.length)
    (hov : ∀ cell ∈ r._data.drop i, cell.hasOverflow = false) :
    CharRow.GetTextRaw.loop r todo i wstr
      = .ok (wstr ++ (r._data.drop i).flatMap CharRowCell.codeUnits) := by
  induction todo generalizing i wstr with
  | zero =>
    have hdrop : r._data.drop i = [] := List.drop_eq_nil_of_le (by omega)
    simp [CharRow.GetTextRaw.loop, hdrop, pure, Except.pure]
  | succ n ih =>
    have hi : i < r._data.length := by omega
    have hdrop : r._data.drop i = r._data[i] :: r._data.drop (i + 1) :=
      List.drop_eq_getElem_cons hi
    have hcell : r._data[i]? = some r._data[i] := List.getElem?_eq_getElem hi
    have hrec := fun w => ih (i + 1) w (by omega)
      (fun cell hmem => hov cell (by rw [hdrop]; exact List.mem_cons_of_mem _ hmem))
    have hgt : CharRowCellReference.glyph { _parent := r, _index := i } = r.glyphText i :=
      rfl
    have hinl := glyphText_of_inline r i _ hcell
      (hov _ (by rw [hdrop]; exact List.mem_cons_self _ _))
    rw [CharRow.GetTextRaw.loop, GlyphAt_const_of_lt r i hi, hdrop]
    simp only [bind, Except.bind]
    rw [hgt, hinl]
    simp only [hrec]
    rw [List.flatMap_cons, List.append_assoc]

theorem blank_cells_text (cells : List CharRowCell) (h : ∀ cell ∈ cells, cell.IsSpace = true) :
    ∀ u ∈ cells.flatMap CharRowCell.codeUnits, u = UNICODE_SPACE := by
  intro u hu
  obtain ⟨cell, hmem, hin⟩ := List.mem_flatMap.mp hu
  exact IsSpace_codeUnits cell (h cell hmem) u hin

/-- C3: `GetText` is the concatenation, by increasing column, of the glyphs of
exactly the columns whose role is not `Trailing` (and it throws exactly when
reading one of those glyphs throws).  When no such cell keeps code units in the
overflow store, this is the concatenation of the inline code units of the
cells that are not trailing.  For a row whose columns 0 and 1 are the leading
and trailing halves of a double-width glyph `g` and whose other columns are
blank, the text is `g` followed by spaces only: `g` appears once. -/
theorem C3_GetText_skips_trailing_columns (r : CharRow) :
    r.GetText
        = (((List.range r.size).filter (fun c => !r.columnIsTrailing c)).mapM
            r.glyphText).map List.flatten
    ∧ ((∀ cell ∈ r._data, cell.DbcsAttr.IsTrailing = false → cell.hasOverflow = false) →
        r.GetText
          = .ok ((r._data.filter (fun cell => !cell.DbcsAttr.IsTrailing)).flatMap
              CharRowCell.codeUnits))
    ∧ (∀ (lead trail : CharRowCell) (blanks : List CharRowCell) (g : List wchar_t),
        r._data = lead :: trail :: blanks →
        lead.DbcsAttr = .Leading → trail.DbcsAttr = .Trailing →
        r.glyphText 0 = .ok g →
        (∀ cell ∈ blanks, cell.IsSpace = true) →
        ∃ pad, (∀ u ∈ pad, u = UNICODE_SPACE) ∧ r.GetText = .ok (g ++ pad))
    ∧ rowWide.GetText = .ok [0x4E00, 0x20]
    ∧ rowOverflow.GetText = .ok [0x65, 0x301] := by
  refine ⟨?_, ?_, ?_, rfl, rfl⟩
  · have h := GetText_loop_eq r r._data.length 0 [] (by omega)
    rw [CharRow.GetText, h, CharRow.size, List.range_eq_range']
    simp
  · intro hov
    have h := GetText_loop_inline r r._data.length 0 [] (by omega) (by simpa using hov)
    rw [CharRow.GetText, h]
    simp
  · intro lead trail blanks g hdata hlead htrail hg hblank
    have hlen : r._data.length = blanks.length + 1 + 1 := by simp [hdata]
    have h0 : r._data[0]? = some lead := by simp [hdata]
    have h1 : r._data[1]? = some trail := by simp [hdata]
    have hlt : lead.DbcsAttr.IsTrailing = false := by rw [hlead]; rfl
    have htt : trail.DbcsAttr.IsTrailing = true := by rw [htrail]; rfl
    have hdrop : r._data.drop 2 = blanks := by simp [hdata]
    have hgt0 : CharRowCellReference.glyph { _parent := r, _index := 0 } = r.glyphText 0 :=
      rfl
    have hrest := GetText_loop_inline r blanks.length 2 g (by omega)
      (by
        rw [hdrop]
        intro cell hmem _
        exact IsSpace_hasOverflow cell (hblank cell hmem))
    refine ⟨(blanks.filter (fun cell => !cell.DbcsAttr.IsTrailing)).flatMap
      CharRowCell.codeUnits, ?_, ?_⟩
    · exact blank_cells_text _ (fun cell hmem => hblank cell (List.mem_of_mem_filter hmem))
    · rw [CharRow.GetText, hlen, CharRow.GetText.loop, GlyphAt_const_of_lt r 0 (by omega),
        DbcsAttrAt_const_of_getElem r 0 lead h0]
      simp only [bind, Except.bind, hlt, Bool.not_false, if_true]
      rw [hgt0, hg]
      simp only [List.nil_append]
      rw [CharRow.GetText.loop, GlyphAt_const_of_lt r 1 (by omega),
        DbcsAttrAt_const_of_getElem r 1 trail h1]
      simp only [bind, Except.bind, htt, Bool.not_true, Bool.false_eq_true, if_false]
      rw [hrest, hdrop]

/-- C4: `GetTextRaw` is the concatenation, by increasing column, of the glyphs of
all columns `0 .. size()-1`, none skipped (and it throws exactly when reading
one of the glyphs throws).  When no cell keeps code units in the overflow
store, this is the concatenation of the inline code units of all cells.  For a
row whose columns 0 and 1 are the two halves of a double-width glyph and whose
other columns are blank, the text is the glyph of column 0, then the content
stored in the trailing column 1, then spaces. -/
theorem C4_GetTextRaw_every_column (r : CharRow) :
    r.GetTextRaw = ((List.range r.size).mapM r.glyphText).map List.flatten
    ∧ ((∀ cell ∈ r._data, cell.hasOverflow = false) →
        r.GetTextRaw = .ok (r._data.flatMap CharRowCell.codeUnits))
    ∧ (∀ (lead trail : CharRowCell) (blanks : List CharRowCell) (g t : List wchar_t),
        r._data = lead :: trail :: blanks →
        lead.DbcsAttr = .Leading → trail.DbcsAttr = .Trailing →
        r.glyphText 0 = .ok g → r.glyphText 1 = .ok t →
        (∀ cell ∈ blanks, cell.IsSpace = true) →
        ∃ pad, (∀ u ∈ pad, u = UNICODE_SPACE) ∧ r.GetTextRaw = .ok (g ++ t ++ pad))
    ∧ rowWide.GetTextRaw = .ok [0x4E00, 0x4E00, 0x20]
    ∧ rowOverflow.GetTextRaw = .ok [0x65, 0x301, 0x65] := by
  refine ⟨?_, ?_, ?_, rfl, rfl⟩
  · have h := GetTextRaw_loop_eq r r._data.length 0 [] (by omega)
    rw [CharRow.GetTextRaw, h, CharRow.size, List.range_eq_range']
    simp
  · intro hov
    have h := GetTextRaw_loop_inline r r._data.length 0 [] (by omega) (by simpa using hov)
    rw [CharRow.GetTextRaw, h]
    simp
  · intro lead trail blanks g t hdata _ _ hg ht hblank
    have hlen : r._data.length = blanks.length + 1 + 1 := by simp [hdata]
    have hdrop : r._data.drop 2 = blanks := by simp [hdata]
    have hgt0 : CharRowCellReference.glyph { _parent := r, _index := 0 } = r.glyphText 0 :=
      rfl
    have hgt1 : CharRowCellReference.glyph { _parent := r, _index := 1 } = r.glyphText 1 :=
      rfl
    have hrest := GetTextRaw_loop_inline r blanks.length 2 (g ++ t) (by omega)
      (by
        rw [hdrop]
        intro cell hmem
        exact IsSpace_hasOverflow cell (hblank cell hmem))
    refine ⟨blanks.flatMap CharRowCell.codeUnits, blank_cells_text _ hblank, ?_⟩
    rw [CharRow.GetTextRaw, hlen, CharRow.GetTextRaw.loop, GlyphAt_const_of_lt r 0 (by omega)]
    simp only [bind, Except.bind]
    rw [hgt0, hg]
    simp only [List.nil_append]
    rw [CharRow.GetTextRaw.loop, GlyphAt_const_of_lt r 1 (by omega)]
    simp only [bind, Except.bind]
    rw [hgt1, ht]
    simp only []
    rw [hrest, hdrop]

/-! ## `ContainsText` and `Reset` -/

theorem ContainsText_loop_iff (cells : List CharRowCell) :
    CharRow.ContainsText.loop cells = true ↔ ∃ cell ∈ cells, cell.IsSpace = false := by
  induction cells with
  | nil => simp [CharRow.ContainsText.loop]
  | cons a t ih =>
    by_cases h : a.IsSpace = true
    · simp [CharRow.ContainsText.loop, h, ih]
    · simp [CharRow.ContainsText.loop, h]

/-- C5: `ContainsText` is true exactly when some column of the row holds a cell
that is not blank; on a row of width 0 it is false. -/
theorem C5_ContainsText_iff_some_nonblank (r : CharRow) :
    (r.ContainsText = true ↔
      ∃ c, c < r.size ∧ ∃ cell, r._data[c]? = some cell ∧ cell.IsSpace = false)
    ∧ (r.size = 0 → r.ContainsText = false) := by
  constructor
  · rw [CharRow.ContainsText, ContainsText_loop_iff]
    constructor
    · rintro ⟨cell, hmem, hns⟩
      obtain ⟨c, hc, hget⟩ := List.getElem_of_mem hmem
      exact ⟨c, hc, cell, by rw [List.getElem?_eq_getElem hc, hget], hns⟩
    · rintro ⟨c, _, cell, hget, hns⟩
      exact ⟨cell, List.getElem?_mem hget, hns⟩
  · intro h0
    have hnil : r._data = [] := List.length_eq_zero.mp h0
    simp [CharRow.ContainsText, hnil, CharRow.ContainsText.loop]

theorem Reset_data (r : CharRow) :
    r.Reset._data = List.replicate r.size CharRowCell.default := by
  simp only [CharRow.Reset, CharRow.size]
  induction r._data with
  | nil => rfl
  | cons a t ih => simp [List.replicate_succ, CharRowCell.Reset, ih]

/-- C6: after `Reset` the row contains no text, both line flags are false, every
cell is the default cell (empty glyph, `Single` role, no overflow flag), and
the width and the owner are the ones the row had before. -/
theorem C6_Reset_clears_row (r : CharRow) :
    r.Reset.ContainsText = false
    ∧ r.Reset.WasWrapForced = false
    ∧ r.Reset.WasDoubleBytePadded = false
    ∧ (∀ c, c < r.size → r.Reset._data[c]? = some CharRowCell.default)
    ∧ (∀ cell ∈ r.Reset._data,
        cell.codeUnits = [] ∧ cell.DbcsAttr = .Single ∧ cell.hasOverflow = false)
    ∧ r.Reset.size = r.size
    ∧ r.Reset._pParent = r._pParent := by
  have hdata := Reset_data r
  refine ⟨?_, rfl, rfl, ?_, ?_, ?_, rfl⟩
  · cases hct : r.Reset.ContainsText with
    | false => rfl
    | true =>
      rw [CharRow.ContainsText, ContainsText_loop_iff, hdata] at hct
      obtain ⟨cell, hmem, hns⟩ := hct
      rw [List.eq_of_mem_replicate hmem] at hns
      exact absurd hns (by decide)
  · intro c hc
    rw [hdata, List.getElem?_replicate]
    simp [hc]
  · intro cell hmem
    rw [hdata] at hmem
    rw [List.eq_of_mem_replicate hmem]
    exact ⟨rfl, rfl, rfl⟩
  · simp [CharRow.size, hdata]

/-! ## `Resize` -/

theorem vector_resize_length {α : Type} (v : List α) (n : Nat) (x : α) :
    (vector_resize v n x).length = n := by
  simp only [vector_resize, List.length_append, List.length_take, List.length_replicate]
  omega

theorem vector_resize_getElem_old {α : Type} (v : List α) (n : Nat) (x : α) (i : Nat)
    (hi : i < min v.length n) : (vector_resize v n x)[i]? = v[i]? := by
  have h1 : i < (v.take n).length := by
    rw [List.length_take]
    omega
  rw [vector_resize, List.getElem?_append_left h1, List.getElem?_take_of_lt (by omega)]

theorem vector_resize_getElem_new {α : Type} (v : List α) (n : Nat) (x : α) (i : Nat)
    (hlo : v.length ≤ i) (hhi : i < n) : (vector_resize v n x)[i]? = some x := by
  have hlen : (v.take n).length = v.length := by
    rw [List.length_take]
    omega
  rw [vector_resize, List.getElem?_append_right (by omega), List.getElem?_replicate]
  simp only [hlen]
  rw [if_pos (by omega)]

theorem vector_resize_same {α : Type} (v : List α) (x : α) :
    vector_resize v v.length x = v := by
  simp [vector_resize]

theorem Resize_ok (max_size : Nat) (r : CharRow) (n : Nat)
    (h : n ≤ r._data.length ∨ n ≤ max_size) :
    r.Resize max_size n
      = (.S_OK, { r with _data := vector_resize r._data n CharRowCell.default }) := by
  simp [CharRow.Resize, h]

theorem Resize_fail (max_size : Nat) (r : CharRow) (n : Nat)
    (h : ¬ (n ≤ r._data.length ∨ n ≤ max_size)) :
    r.Resize max_size n = (.failure .length_error, r) := by
  simp [CharRow.Resize, h]

/-- C7: a successful `Resize(n)` leaves a row of width `n` in which every column
below both the old and the new width holds the cell it held before, and every
column from the old width up to `n` holds the default-constructed cell. -/
theorem C7_Resize_keeps_old_columns (max_size : Nat) (r : CharRow) (n : Nat)
    (h : (r.Resize max_size n).1 = HRESULT.S_OK) :
    (r.Resize max_size n).2.size = n
    ∧ (∀ i, i < min r.size n → (r.Resize max_size n).2._data[i]? = r._data[i]?)
    ∧ (∀ i, r.size ≤ i → i < n →
        (r.Resize max_size n).2._data[i]? = some CharRowCell.default) := by
  by_cases hc : n ≤ r._data.length ∨ n ≤ max_size
  · rw [Resize_ok max_size r n hc]
    refine ⟨vector_resize_length _ _ _, ?_, ?_⟩
    · exact fun i hi => vector_resize_getElem_old _ _ _ i hi
    · exact fun i hlo hhi => vector_resize_getElem_new _ _ _ i hlo hhi
  · rw [Resize_fail max_size r n hc] at h
    cases h

/-- Witness for C7: growing the row `blank, blank, 'a', 'b', blank` to width 7 and
shrinking it to width 3 both succeed. -/
theorem C7_Resize_keeps_old_columns_witness :
    ((rowAB.Resize 100 7).1 = HRESULT.S_OK ∧ (rowAB.Resize 100 7).2.size = 7)
    ∧ ((rowAB.Resize 100 3).1 = HRESULT.S_OK ∧ (rowAB.Resize 100 3).2.size = 3) :=
  ⟨⟨by decide, (C7_Resize_keeps_old_columns 100 rowAB 7 (by decide)).1⟩,
   ⟨by decide, (C7_Resize_keeps_old_columns 100 rowAB 3 (by decide)).1⟩⟩

/-- C8: shrinking a row of width `W` to `w < W` and resizing it back to `W` (a
width the vector can hold) succeeds twice and leaves a row of width `W` whose
columns below `w` hold the original cells and whose columns from `w` up to `W`
hold default cells, whatever they held before the shrink. -/
theorem C8_Resize_shrink_then_grow (max_size : Nat) (r : CharRow) (w : Nat)
    (hlt : w < r.size) (hmax : r.size ≤ max_size) :
    (r.Resize max_size w).1 = HRESULT.S_OK
    ∧ ((r.Resize max_size w).2.Resize max_size r.size).1 = HRESULT.S_OK
    ∧ ((r.Resize max_size w).2.Resize max_size r.size).2.size = r.size
    ∧ (∀ c, c < w →
        ((r.Resize max_size w).2.Resize max_size r.size).2._data[c]? = r._data[c]?)
    ∧ (∀ c, w ≤ c → c < r.size →
        ((r.Resize max_size w).2.Resize max_size r.size).2._data[c]?
          = some CharRowCell.default) := by
  simp only [CharRow.size] at hlt hmax ⊢
  rw [Resize_ok max_size r w (Or.inl (by omega))]
  simp only []
  rw [Resize_ok max_size _ r._data.length (Or.inr hmax)]
  simp only []
  have hlen : (vector_resize r._data w CharRowCell.default).length = w :=
    vector_resize_length _ _ _
  refine ⟨trivial, trivial, vector_resize_length _ _ _, ?_, ?_⟩
  · intro c hc
    rw [vector_resize_getElem_old _ _ _ c (by omega),
      vector_resize_getElem_old _ _ _ c (by omega)]
  · intro c hlo hhi
    exact vector_resize_getElem_new _ _ _ c (by omega) hhi

/-- Witness for C8: the row `blank, blank, 'a', 'b', blank` shrunk to width 2 and
resized back to width 5 holds default cells where `'a'` and `'b'` were. -/
theorem C8_Resize_shrink_then_grow_witness :
    (2 < rowAB.size ∧ rowAB.size ≤ 100)
    ∧ ((rowAB.Resize 100 2).2.Resize 100 rowAB.size).2._data[2]? = some CharRowCell.default
    ∧ rowAB._data[2]? = some (glyphCell 97) :=
  ⟨⟨by decide, by decide⟩,
   (C8_Resize_shrink_then_grow 100 rowAB 2 (by decide) (by decide)).2.2.2.2 2
     (by decide) (by decide),
   by decide⟩

/-- C9: `Resize(w)` is idempotent: a second `Resize(w)` returns the same result
code and leaves the row (width, cells, both flags, owner) exactly as the first
call left it; in particular no column below `w` changes, and on a row that
already has width `w` the call changes nothing. -/
theorem C9_Resize_idempotent (max_size : Nat) (r : CharRow) (w : Nat) :
    ((r.Resize max_size w).2.Resize max_size w).2 = (r.Resize max_size w).2
    ∧ ((r.Resize max_size w).2.Resize max_size w).1 = (r.Resize max_size w).1
    ∧ (∀ c, c < w →
        ((r.Resize max_size w).2.Resize max_size w).2._data[c]?
          = (r.Resize max_size w).2._data[c]?)
    ∧ (r.size = w → r.Resize max_size w = (HRESULT.S_OK, r)) := by
  have key : (r.Resize max_size w).2.Resize max_size w = r.Resize max_size w := by
    by_cases hc : w ≤ r._data.length ∨ w ≤ max_size
    · rw [Resize_ok max_size r w hc]
      have hlen : (vector_resize r._data w CharRowCell.default).length = w :=
        vector_resize_length _ _ _
      rw [Resize_ok max_size _ w (Or.inl (by simp only [hlen]; exact Nat.le_refl w))]
      simp only []
      have hsame := vector_resize_same (vector_resize r._data w CharRowCell.default)
        CharRowCell.default
      rw [hlen] at hsame
      rw [hsame]
    · rw [Resize_fail max_size r w hc]
      exact Resize_fail max_size r w hc
  rw [key]
  refine ⟨rfl, rfl, fun _ _ => rfl, ?_⟩
  intro hw
  rw [CharRow.size] at hw
  rw [Resize_ok max_size r w (Or.inl (by omega)), ← hw, vector_resize_same]

/-! ## Column access -/

theorem vector_at_of_lt {α : Type} (v : List α) (i : Nat) (h : i < v.length) :
    vector_at v i = .ok v[i] := by
  simp [vector_at, List.getElem?_eq_getElem h]

theorem vector_at_of_ge {α : Type} (v : List α) (i : Nat) (h : v.length ≤ i) :
    vector_at v i = .error .out_of_range := by
  simp [vector_at, List.getElem?_eq_none h]

/-- The six accesses at a column of the row all return. -/
theorem access_ok_of_lt (r : CharRow) (c : Nat) (h : c < r.size) :
    (r.GlyphAt c).isOk = true ∧ (r.GlyphAt_const c).isOk = true
    ∧ (r.DbcsAttrAt c).isOk = true ∧ (r.DbcsAttrAt_const c).isOk = true
    ∧ (r.ClearCell c).isOk = true ∧ (r.ClearGlyph c).isOk = true := by
  rw [CharRow.size] at h
  have hng : ¬ c ≥ r._data.length := by omega
  simp [CharRow.GlyphAt, CharRow.GlyphAt_const, CharRow.DbcsAttrAt, CharRow.DbcsAttrAt_const,
    CharRow.ClearCell, CharRow.ClearGlyph, vector_at_of_lt r._data c h, hng, bind, Except.bind,
    pure, Except.pure, Except.isOk, Except.toBool]

/-- The six accesses at a column that is not below the width all throw. -/
theorem access_error_of_ge (r : CharRow) (c : Nat) (h : c ≥ r.size) :
    r.GlyphAt c = .error .E_INVALIDARG ∧ r.GlyphAt_const c = .error .E_INVALIDARG
    ∧ r.DbcsAttrAt c = .error .out_of_range ∧ r.DbcsAttrAt_const c = .error .out_of_range
    ∧ r.ClearCell c = .error .out_of_range ∧ r.ClearGlyph c = .error .out_of_range := by
  rw [CharRow.size] at h
  simp [CharRow.GlyphAt, CharRow.GlyphAt_const, CharRow.DbcsAttrAt, CharRow.DbcsAttrAt_const,
    CharRow.ClearCell, CharRow.ClearGlyph, vector_at_of_ge r._data c h, h, bind, Except.bind]

/-- C10: each of `GlyphAt` (mutable and const form), `DbcsAttrAt` (mutable and
const form), `ClearCell` and `ClearGlyph` fails at column `c` exactly when
`c >= size()`.  The failure is the one the code raises for a column out of
range: `std::out_of_range` from `vector::at` for `DbcsAttrAt`, `ClearCell` and
`ClearGlyph`, and the `E_INVALIDARG` of the `column >= size()` guard for
`GlyphAt`.  In particular each fails at `size()` and `size() + 1` and returns at
`size() - 1` when the row is not empty. -/
theorem C10_column_access_fails_iff_out_of_range (r : CharRow) (c : Nat) :
    ((r.GlyphAt c).isOk = false ↔ c ≥ r.size)
    ∧ ((r.GlyphAt_const c).isOk = false ↔ c ≥ r.size)
    ∧ ((r.DbcsAttrAt c).isOk = false ↔ c ≥ r.size)
    ∧ ((r.DbcsAttrAt_const c).isOk = false ↔ c ≥ r.size)
    ∧ ((r.ClearCell c).isOk = false ↔ c ≥ r.size)
    ∧ ((r.ClearGlyph c).isOk = false ↔ c ≥ r.size)
    ∧ (c ≥ r.size →
        r.GlyphAt c = .error .E_INVALIDARG ∧ r.GlyphAt_const c = .error .E_INVALIDARG
        ∧ r.DbcsAttrAt c = .error .out_of_range ∧ r.DbcsAttrAt_const c = .error .out_of_range
        ∧ r.ClearCell c = .error .out_of_range ∧ r.ClearGlyph c = .error .out_of_range)
    ∧ (∀ b, b = r.size ∨ b = r.size + 1 →
        (r.GlyphAt b).isOk = false ∧ (r.GlyphAt_const b).isOk = false
        ∧ (r.DbcsAttrAt b).isOk = false ∧ (r.DbcsAttrAt_const b).isOk = false
        ∧ (r.ClearCell b).isOk = false ∧ (r.ClearGlyph b).isOk = false)
    ∧ (1 ≤ r.size →
        (r.GlyphAt (r.size - 1)).isOk = true ∧ (r.GlyphAt_const (r.size - 1)).isOk = true
        ∧ (r.DbcsAttrAt (r.size - 1)).isOk = true
        ∧ (r.DbcsAttrAt_const (r.size - 1)).isOk = true
        ∧ (r.ClearCell (r.size - 1)).isOk = true ∧ (r.ClearGlyph (r.size - 1)).isOk = true) := by
  have hfail : ∀ b, b ≥ r.size →
      (r.GlyphAt b).isOk = false ∧ (r.GlyphAt_const b).isOk = false
      ∧ (r.DbcsAttrAt b).isOk = false ∧ (r.DbcsAttrAt_const b).isOk = false
      ∧ (r.ClearCell b).isOk = false ∧ (r.ClearGlyph b).isOk = false := by
    intro b hb
    obtain ⟨h1, h2, h3, h4, h5, h6⟩ := access_error_of_ge r b hb
    rw [h1, h2, h3, h4, h5, h6]
    exact ⟨rfl, rfl, rfl, rfl, rfl, rfl⟩
  have hiff : ∀ (p q : Bool), (c < r.size → p = true) → (c ≥ r.size → q = false) → p = q →
      (p = false ↔ c ≥ r.size) := by
    intro p q hp hq hpq
    constructor
    · intro hpf
      by_contra hlt
      rw [hp (by omega)] at hpf
      cases hpf
    · intro hge
      rw [hpq]
      exact hq hge
  refine ⟨?_, ?_, ?_, ?_, ?_, ?_, access_error_of_ge r c, ?_, ?_⟩
  · exact hiff _ _ (fun h => (access_ok_of_lt r c h).1) (fun h => (hfail c h).1) rfl
  · exact hiff _ _ (fun h => (access_ok_of_lt r c h).2.1) (fun h => (hfail c h).2.1) rfl
  · exact hiff _ _ (fun h => (access_ok_of_lt r c h).2.2.1) (fun h => (hfail c h).2.2.1) rfl
  · exact hiff _ _ (fun h => (access_ok_of_lt r c h).2.2.2.1)
      (fun h => (hfail c h).2.2.2.1) rfl
  · exact hiff _ _ (fun h => (access_ok_of_lt r c h).2.2.2.2.1)
      (fun h => (hfail c h).2.2.2.2.1) rfl
  · exact hiff _ _ (fun h => (access_ok_of_lt r c h).2.2.2.2.2)
      (fun h => (hfail c h).2.2.2.2.2) rfl
  · intro b hb
    exact hfail b (by omega)
  · intro hpos
    exact access_ok_of_lt r (r.size - 1) (by omega)

/-! ## Clearing a column -/

theorem ClearCell_of_lt (r : CharRow) (c : Nat) (h : c < r._data.length) :
    r.ClearCell c = .ok { r with _data := r._data.set c CharRowCell.default } := by
  simp [CharRow.ClearCell, vector_at_of_lt r._data c h, bind, Except.bind, pure, Except.pure,
    CharRowCell.Reset]

theorem ClearGlyph_of_lt (r : CharRow) (c : Nat) (h : c < r._data.length) :
    r.ClearGlyph c = .ok { r with _data := r._data.set c (r._data[c]).EraseChars } := by
  simp [CharRow.ClearGlyph, vector_at_of_lt r._data c h, bind, Except.bind, pure, Except.pure]

/-- The call form of `ClearCell` and the function `ClearCell` describe the same
member: same outcome, same row on return, and the old row on a throw. -/
theorem ClearCell_call_eq (r : CharRow) (c : Nat) :
    r.ClearCell_call c
      = match r.ClearCell c with
        | .ok next => (.ok (), next)
        | .error e => (.error e, r) := by
  simp only [CharRow.ClearCell_call, CharRow.ClearCell, bind, Except.bind, pure, Except.pure]
  cases vector_at r._data c <;> rfl

/-- The call form of `ClearGlyph` and the function `ClearGlyph` describe the same
member. -/
theorem ClearGlyph_call_eq (r : CharRow) (c : Nat) :
    r.ClearGlyph_call c
      = match r.ClearGlyph c with
        | .ok next => (.ok (), next)
        | .error e => (.error e, r) := by
  simp only [CharRow.ClearGlyph_call, CharRow.ClearGlyph, bind, Except.bind, pure, Except.pure]
  cases vector_at r._data c <;> rfl

/-- C11: a `ClearCell`, `ClearGlyph`, `DbcsAttrAt` or `GlyphAt` call at a column
`c >= size()` throws and leaves the row object exactly as it was: same width,
same cells, same two flags (and same owner). -/
theorem C11_failed_access_leaves_row_unchanged (r : CharRow) (c : Nat) (h : c ≥ r.size) :
    r.ClearCell_call c = (.error .out_of_range, r)
    ∧ r.ClearGlyph_call c = (.error .out_of_range, r)
    ∧ r.DbcsAttrAt_call c = (.error .out_of_range, r)
    ∧ r.GlyphAt_call c = (.error .E_INVALIDARG, r)
    ∧ ((r.ClearCell_call c).2.size = r.size
        ∧ (r.ClearCell_call c).2._data = r._data
        ∧ (r.ClearCell_call c).2.WasWrapForced = r.WasWrapForced
        ∧ (r.ClearCell_call c).2.WasDoubleBytePadded = r.WasDoubleBytePadded)
    ∧ ((r.ClearGlyph_call c).2.size = r.size
        ∧ (r.ClearGlyph_call c).2._data = r._data
        ∧ (r.ClearGlyph_call c).2.WasWrapForced = r.WasWrapForced
        ∧ (r.ClearGlyph_call c).2.WasDoubleBytePadded = r.WasDoubleBytePadded) := by
  have hat := vector_at_of_ge r._data c h
  obtain ⟨h1, _, h3, _, _, _⟩ := access_error_of_ge r c h
  have hcc : r.ClearCell_call c = (.error .out_of_range, r) := by
    simp [CharRow.ClearCell_call, hat]
  have hcg : r.ClearGlyph_call c = (.error .out_of_range, r) := by
    simp [CharRow.ClearGlyph_call, hat]
  refine ⟨hcc, hcg, ?_, ?_, ?_, ?_⟩
  · rw [CharRow.DbcsAttrAt_call, h3]
  · rw [CharRow.GlyphAt_call, h1]
  · rw [hcc]; exact ⟨rfl, rfl, rfl, rfl⟩
  · rw [hcg]; exact ⟨rfl, rfl, rfl, rfl⟩

/-- Witness for C11: the four calls at columns 5 and 6 of the width 5 row
`blank, blank, 'a', 'b', blank`. -/
theorem C11_failed_access_leaves_row_unchanged_witness :
    (5 ≥ rowAB.size ∧ rowAB.ClearCell_call 5 = (.error .out_of_range, rowAB))
    ∧ (6 ≥ rowAB.size ∧ rowAB.GlyphAt_call 6 = (.error .E_INVALIDARG, rowAB)) :=
  ⟨⟨by decide, (C11_failed_access_leaves_row_unchanged rowAB 5 (by decide)).1⟩,
   ⟨by decide, (C11_failed_access_leaves_row_unchanged rowAB 6 (by decide)).2.2.2.1⟩⟩

/-- C12: at a column `c < size()`, `ClearGlyph(c)` returns and leaves at `c` a
cell with empty (blank) glyph content, the overflow flag cleared and the role
it had before; every other cell, the width, both line flags and the owner are
unchanged. -/
theorem C12_ClearGlyph_erases_only_the_glyph (r : CharRow) (c : Nat) (h : c < r.size) :
    ∃ old next,
      r._data[c]? = some old
      ∧ r.ClearGlyph c = .ok next
      ∧ r.ClearGlyph_call c = (.ok (), next)
      ∧ next._data[c]?
          = some { codeUnits := [], dbcsRole := old.dbcsRole, hasOverflow := false }
      ∧ (∀ cell, next._data[c]? = some cell →
          cell.codeUnits = [] ∧ cell.hasOverflow = false ∧ cell.IsSpace = true
          ∧ cell.DbcsAttr = old.DbcsAttr)
      ∧ (∀ j, j ≠ c → next._data[j]? = r._data[j]?)
      ∧ next.size = r.size
      ∧ next.WasWrapForced = r.WasWrapForced
      ∧ next.WasDoubleBytePadded = r.WasDoubleBytePadded
      ∧ next._pParent = r._pParent := by
  rw [CharRow.size] at h
  have hok := ClearGlyph_of_lt r c h
  have hcall := ClearGlyph_call_eq r c
  rw [hok] at hcall
  have hnew : (r._data.set c (r._data[c]).EraseChars)[c]?
      = some { codeUnits := [], dbcsRole := (r._data[c]).dbcsRole, hasOverflow := false } := by
    rw [List.getElem?_set_self h]
    rfl
  refine ⟨r._data[c], _, List.getElem?_eq_getElem h, hok, hcall, hnew, ?_, ?_, ?_, rfl, rfl, rfl⟩
  · intro cell hcell
    simp only [] at hcell
    rw [hnew] at hcell
    cases hcell
    exact ⟨rfl, rfl, rfl, rfl⟩
  · intro j hj
    exact List.getElem?_set_ne (Ne.symm hj)
  · simp [CharRow.size]

/-- Witness for C12: column 0 of the row whose first cell is a leading half with
an overflow entry. -/
theorem C12_ClearGlyph_erases_only_the_glyph_witness :
    0 < rowOverflow.size
    ∧ ∃ old next,
      rowOverflow._data[0]? = some old
      ∧ rowOverflow.ClearGlyph 0 = .ok next
      ∧ rowOverflow.ClearGlyph_call 0 = (.ok (), next)
      ∧ next._data[0]?
          = some { codeUnits := [], dbcsRole := old.dbcsRole, hasOverflow := false }
      ∧ (∀ cell, next._data[0]? = some cell →
          cell.codeUnits = [] ∧ cell.hasOverflow = false ∧ cell.IsSpace = true
          ∧ cell.DbcsAttr = old.DbcsAttr)
      ∧ (∀ j, j ≠ 0 → next._data[j]? = rowOverflow._data[j]?)
      ∧ next.size = rowOverflow.size
      ∧ next.WasWrapForced = rowOverflow.WasWrapForced
      ∧ next.WasDoubleBytePadded = rowOverflow.WasDoubleBytePadded
      ∧ next._pParent = rowOverflow._pParent :=
  ⟨by decide, C12_ClearGlyph_erases_only_the_glyph rowOverflow 0 (by decide)⟩

/-- C13: at a column `c < size()`, `ClearCell(c)` returns and leaves at `c` the
default cell (blank glyph, `Single` role, no overflow); every cell at another
column, the width, both line flags and the owner are unchanged. -/
theorem C13_ClearCell_resets_one_cell (r : CharRow) (c : Nat) (h : c < r.size) :
    ∃ next,
      r.ClearCell c = .ok next
      ∧ r.ClearCell_call c = (.ok (), next)
      ∧ next._data[c]? = some CharRowCell.default
      ∧ (CharRowCell.default.codeUnits = [] ∧ CharRowCell.default.IsSpace = true
          ∧ CharRowCell.default.DbcsAttr = .Single
          ∧ CharRowCell.default.hasOverflow = false)
      ∧ (∀ j, j ≠ c → next._data[j]? = r._data[j]?)
      ∧ next.size = r.size
      ∧ next.WasWrapForced = r.WasWrapForced
      ∧ next.WasDoubleBytePadded = r.WasDoubleBytePadded
      ∧ next._pParent = r._pParent := by
  rw [CharRow.size] at h
  have hok := ClearCell_of_lt r c h
  have hcall := ClearCell_call_eq r c
  rw [hok] at hcall
  refine ⟨_, hok, hcall, List.getElem?_set_self h, ⟨rfl, rfl, rfl, rfl⟩, ?_, ?_, rfl, rfl, rfl⟩
  · intro j hj
    exact List.getElem?_set_ne (Ne.symm hj)
  · simp [CharRow.size]

/-- Witness for C13: clearing column 2 (the cell `'a'`) of the row
`blank, blank, 'a', 'b', blank`. -/
theorem C13_ClearCell_resets_one_cell_witness :
    2 < rowAB.size
    ∧ ∃ next,
      rowAB.ClearCell 2 = .ok next
      ∧ rowAB.ClearCell_call 2 = (.ok (), next)
      ∧ next._data[2]? = some CharRowCell.default
      ∧ (CharRowCell.default.codeUnits = [] ∧ CharRowCell.default.IsSpace = true
          ∧ CharRowCell.default.DbcsAttr = .Single
          ∧ CharRowCell.default.hasOverflow = false)
      ∧ (∀ j, j ≠ 2 → next._data[j]? = rowAB._data[j]?)
      ∧ next.size = rowAB.size
      ∧ next.WasWrapForced = rowAB.WasWrapForced
      ∧ next.WasDoubleBytePadded = rowAB.WasDoubleBytePadded
      ∧ next._pParent = rowAB._pParent :=
  ⟨by decide, C13_ClearCell_resets_one_cell rowAB 2 (by decide)⟩

/-! ## `swap` and the line flags -/

/-- C14: after `a.swap(b)` the row `a` has the width, the cells, both flags and
the owner that `b` had, and `b` has those that `a` had; the free function
`swap` does the same.  So a member of either row keeps its old value only when
the two rows agreed on it. -/
theorem C14_swap_exchanges_all_members (a b : CharRow) :
    (a.swap b).1 = b ∧ (a.swap b).2 = a
    ∧ swap a b = (b, a)
    ∧ ((a.swap b).1.size = b.size ∧ (a.swap b).1._data = b._data
        ∧ (a.swap b).1.WasWrapForced = b.WasWrapForced
        ∧ (a.swap b).1.WasDoubleBytePadded = b.WasDoubleBytePadded
        ∧ (a.swap b).1._pParent = b._pParent)
    ∧ ((a.swap b).2.size = a.size ∧ (a.swap b).2._data = a._data
        ∧ (a.swap b).2.WasWrapForced = a.WasWrapForced
        ∧ (a.swap b).2.WasDoubleBytePadded = a.WasDoubleBytePadded
        ∧ (a.swap b).2._pParent = a._pParent)
    ∧ (((a.swap b).1._data = a._data → a._data = b._data)
        ∧ ((a.swap b).1.WasWrapForced = a.WasWrapForced → a.WasWrapForced = b.WasWrapForced)
        ∧ ((a.swap b).1.WasDoubleBytePadded = a.WasDoubleBytePadded →
            a.WasDoubleBytePadded = b.WasDoubleBytePadded)
        ∧ ((a.swap b).1._pParent = a._pParent → a._pParent = b._pParent)
        ∧ ((a.swap b).1.size = a.size → a.size = b.size))
    ∧ (rowAB.swap rowOverflow).1 = rowOverflow ∧ (rowAB.swap rowOverflow).2 = rowAB := by
  have h1 : (a.swap b).1 = b := rfl
  have h2 : (a.swap b).2 = a := rfl
  refine ⟨h1, h2, rfl, ?_, ?_, ?_, rfl, rfl⟩
  · rw [h1]; exact ⟨rfl, rfl, rfl, rfl, rfl⟩
  · rw [h2]; exact ⟨rfl, rfl, rfl, rfl, rfl⟩
  · rw [h1]
    exact ⟨fun h => h.symm, fun h => h.symm, fun h => h.symm, fun h => h.symm, fun h => h.symm⟩

/-- C17: `SetWrapForced(b)` makes `WasWrapForced()` return `b` and changes neither
`WasDoubleBytePadded()`, the width nor any cell; `SetDoubleBytePadded(b)` makes
`WasDoubleBytePadded()` return `b` and changes neither `WasWrapForced()`, the
width nor any cell; a row that the constructor returns has both flags false
and the width asked for, and the constructor returns for every width the
vector can hold. -/
theorem C17_line_flags_are_independent (r : CharRow) (b : Bool) :
    ((r.SetWrapForced b).WasWrapForced = b
      ∧ (r.SetWrapForced b).WasDoubleBytePadded = r.WasDoubleBytePadded
      ∧ (r.SetWrapForced b).size = r.size
      ∧ (r.SetWrapForced b)._data = r._data
      ∧ (r.SetWrapForced b)._pParent = r._pParent)
    ∧ ((r.SetDoubleBytePadded b).WasDoubleBytePadded = b
      ∧ (r.SetDoubleBytePadded b).WasWrapForced = r.WasWrapForced
      ∧ (r.SetDoubleBytePadded b).size = r.size
      ∧ (r.SetDoubleBytePadded b)._data = r._data
      ∧ (r.SetDoubleBytePadded b)._pParent = r._pParent)
    ∧ (∀ (max_size rowWidth : Nat) (pParent : ROW) (row : CharRow),
        CharRow.new max_size rowWidth pParent = .ok row →
          row.WasWrapForced = false ∧ row.WasDoubleBytePadded = false
          ∧ row.size = rowWidth)
    ∧ (∀ (max_size rowWidth : Nat) (pParent : ROW), rowWidth ≤ max_size →
        ∃ row, CharRow.new max_size rowWidth pParent = .ok row) := by
  refine ⟨⟨rfl, rfl, rfl, rfl, rfl⟩, ⟨rfl, rfl, rfl, rfl, rfl⟩, ?_, ?_⟩
  · intro max_size rowWidth pParent row hnew
    by_cases hw : rowWidth ≤ max_size
    · simp only [CharRow.new, hw, if_true] at hnew
      cases hnew
      exact ⟨rfl, rfl, by simp [CharRow.size]⟩
    · simp only [CharRow.new, hw, if_false] at hnew
      cases hnew
  · intro max_size rowWidth pParent hw
    exact ⟨_, by rw [CharRow.new, if_pos hw]⟩

/-! ## The three scans together -/

theorem exists_nonblank_iff_takeWhile_lt (cells : List CharRowCell) :
    (∃ cell ∈ cells, cell.IsSpace = false)
      ↔ (cells.takeWhile CharRowCell.IsSpace).length < cells.length := by
  constructor
  · rintro ⟨cell, hmem, hns⟩
    obtain ⟨i, hi⟩ := List.getElem?_of_mem hmem
    have hle := takeWhile_length_le_of_fails CharRowCell.IsSpace cells i cell hi hns
    have hlt : i < cells.length := by
      by_contra hge
      rw [List.getElem?_eq_none (by omega)] at hi
      cases hi
    omega
  · intro hlt
    obtain ⟨cell, hget, hns⟩ := takeWhile_fails_at_stop CharRowCell.IsSpace cells hlt
    exact ⟨cell, List.getElem?_mem hget, hns⟩

/-- C18: `ContainsText()` is true iff `MeasureLeft() < size()` iff
`MeasureRight() > 0`; when it is true, `MeasureLeft() < MeasureRight() <= size()`;
when it is false, `MeasureLeft() = size()` and `MeasureRight() = 0`. -/
theorem C18_scans_agree (r : CharRow) :
    (r.ContainsText = true ↔ r.MeasureLeft < r.size)
    ∧ (r.ContainsText = true ↔ 0 < r.MeasureRight)
    ∧ (r.MeasureLeft < r.size ↔ 0 < r.MeasureRight)
    ∧ (r.ContainsText = true → r.MeasureLeft < r.MeasureRight ∧ r.MeasureRight ≤ r.size)
    ∧ (r.ContainsText = false → r.MeasureLeft = r.size ∧ r.MeasureRight = 0) := by
  have hL := exists_nonblank_iff_takeWhile_lt r._data
  have hR := exists_nonblank_iff_takeWhile_lt r._data.reverse
  have hkL := takeWhile_length_le_length CharRowCell.IsSpace r._data
  have hkR := reverse_takeWhile_length_le r
  have hC : r.ContainsText = true ↔ ∃ cell ∈ r._data, cell.IsSpace = false := by
    rw [CharRow.ContainsText, ContainsText_loop_iff]
  have hrev : (∃ cell ∈ r._data.reverse, cell.IsSpace = false)
      ↔ ∃ cell ∈ r._data, cell.IsSpace = false := by
    simp
  rw [hrev, List.length_reverse] at hR
  have h1 : r.ContainsText = true ↔ r.MeasureLeft < r.size := by
    rw [hC, hL, MeasureLeft_eq, CharRow.size]
  have h2 : r.ContainsText = true ↔ 0 < r.MeasureRight := by
    rw [hC, hR, MeasureRight_eq]
    omega
  refine ⟨h1, h2, h1.symm.trans h2, ?_, ?_⟩
  · intro hct
    have hlt := hL.mp (hC.mp hct)
    obtain ⟨cell, hget, hns⟩ := takeWhile_fails_at_stop CharRowCell.IsSpace r._data hlt
    have hrevget : r._data.reverse[r._data.length - 1
        - (r._data.takeWhile CharRowCell.IsSpace).length]? = some cell := by
      rw [List.getElem?_reverse (by omega)]
      have hidx : r._data.length - 1
          - (r._data.length - 1 - (r._data.takeWhile CharRowCell.IsSpace).length)
          = (r._data.takeWhile CharRowCell.IsSpace).length := by omega
      rw [hidx]
      exact hget
    have hle := takeWhile_length_le_of_fails CharRowCell.IsSpace r._data.reverse _ cell
      hrevget hns
    rw [MeasureLeft_eq, MeasureRight_eq, CharRow.size]
    omega
  · intro hct
    have hn1 : ¬ r.MeasureLeft < r.size := fun hlt => by
      rw [h1.mpr hlt] at hct
      cases hct
    have hn2 : ¬ 0 < r.MeasureRight := fun hlt => by
      rw [h2.mpr hlt] at hct
      cases hct
    have hle : r.MeasureLeft ≤ r.size := by
      rw [MeasureLeft_eq, CharRow.size]
      exact hkL
    omega

/-! ## The key into the overflow store -/

theorem gsl_narrow_SHORT_eq (u : Nat) (hu : u < 18446744073709551616) :
    gsl_narrow_SHORT u = narrow_SHORT u := by
  unfold gsl_narrow_SHORT narrow_SHORT static_cast_size_t static_cast_SHORT SHORT_MAX
  by_cases hsmall : u ≤ 32767
  · have hmod : u % 65536 = u := Nat.mod_eq_of_lt (by omega)
    have hback : ((Int.ofNat u) % 18446744073709551616).toNat = u := by
      have : (Int.ofNat u) % 18446744073709551616 = Int.ofNat u :=
        Int.emod_eq_of_lt (Int.ofNat_nonneg u) (by simp only [Int.ofNat_eq_coe]; omega)
      rw [this]
      rfl
    have hnn : ¬ (Int.ofNat u < 0) := by
      simp only [Int.ofNat_eq_coe]
      omega
    simp only [hmod, hsmall, if_true, show u < 32768 from by omega, hback, ne_eq,
      not_true_eq_false, if_false, hnn]
  · simp only [hsmall, if_false]
    by_cases hlow : u % 65536 < 32768
    · simp only [hlow, if_true]
      have hback : ((Int.ofNat (u % 65536)) % 18446744073709551616).toNat = u % 65536 := by
        have : (Int.ofNat (u % 65536)) % 18446744073709551616 = Int.ofNat (u % 65536) :=
          Int.emod_eq_of_lt (Int.ofNat_nonneg _) (by simp only [Int.ofNat_eq_coe]; omega)
        rw [this]
        rfl
      have hne : u % 65536 ≠ u := by omega
      simp only [hback, ne_eq, hne, not_false_eq_true, if_true]
    · simp only [hlow, if_false]
      have hneg : Int.ofNat (u % 65536) - 65536 < 0 := by
        simp only [Int.ofNat_eq_coe]
        omega
      simp only [hneg, if_true]
      split <;> rfl

/-- C19: `GetStorageKey(column)` returns the pair (column, owner id) when
`column <= 32767` and throws the narrowing error when `column >= 32768`, so it
returns iff `column <= 32767`; the width of the row plays no part, so it also
returns for columns at or beyond `size()`; two columns with the same key are
the same column.  The bound is the one `gsl::narrow<SHORT>` computes on a
64-bit `size_t`. -/
theorem C19_GetStorageKey_narrows_column (r : CharRow) (column : Nat) :
    (column ≤ 32767 →
        r.GetStorageKey column = .ok { X := Int.ofNat column, Y := r._pParent.GetId })
    ∧ (column ≥ 32768 → r.GetStorageKey column = .error .narrowing_error)
    ∧ ((r.GetStorageKey column).isOk = true ↔ column ≤ 32767)
    ∧ (r.size ≤ column → column ≤ 32767 → (r.GetStorageKey column).isOk = true)
    ∧ (∀ other key, r.GetStorageKey column = .ok key → r.GetStorageKey other = .ok key →
        column = other)
    ∧ (column < 18446744073709551616 → gsl_narrow_SHORT column = narrow_SHORT column)
    ∧ rowAB.GetStorageKey 100 = .ok { X := 100, Y := 7 }
    ∧ rowAB.GetStorageKey 32767 = .ok { X := 32767, Y := 7 }
    ∧ rowAB.GetStorageKey 32768 = .error .narrowing_error
    ∧ gsl_narrow_SHORT 65536 = .error .narrowing_error
    ∧ gsl_narrow_SHORT 18446744073709551615 = .error .narrowing_error := by
  have hok : ∀ c, c ≤ 32767 →
      r.GetStorageKey c = .ok { X := Int.ofNat c, Y := r._pParent.GetId } := by
    intro c hc
    simp [CharRow.GetStorageKey, narrow_SHORT, SHORT_MAX, hc, bind, Except.bind, pure,
      Except.pure]
  have herr : ∀ c, c ≥ 32768 → r.GetStorageKey c = .error .narrowing_error := by
    intro c hc
    have hn : ¬ c ≤ 32767 := by omega
    simp [CharRow.GetStorageKey, narrow_SHORT, SHORT_MAX, hn, bind, Except.bind]
  refine ⟨hok column, herr column, ?_, ?_, ?_, gsl_narrow_SHORT_eq column, rfl, rfl, rfl,
    (gsl_narrow_SHORT_eq 65536 (by omega)).trans rfl,
    (gsl_narrow_SHORT_eq 18446744073709551615 (by omega)).trans rfl⟩
  · constructor
    · intro h
      by_contra hgt
      rw [herr column (by omega)] at h
      cases h
    · intro h
      rw [hok column h]
      rfl
  · intro _ h
    rw [hok column h]
    rfl
  · intro other key h1 h2
    by_cases hc : column ≤ 32767
    · by_cases ho : other ≤ 32767
      · rw [hok column hc] at h1
        rw [hok other ho] at h2
        cases h1
        simp only [Except.ok.injEq, COORD.mk.injEq, Int.ofNat_eq_coe, Nat.cast_inj,
          and_true] at h2
        exact h2.symm
      · rw [herr other (by omega)] at h2
        cases h2
    · rw [herr column (by omega)] at h1
      cases h1

/-! ## `GetText` against `GetTextRaw` -/

theorem mapM_ok_of_forall {α β : Type} (f : α → Except Exception β) (g : α → β)
    (l : List α) (h : ∀ x ∈ l, f x = .ok (g x)) : l.mapM f = .ok (l.map g) := by
  induction l with
  | nil => rfl
  | cons a t ih =>
    rw [List.mapM_cons, h a (List.mem_cons_self _ _),
      ih (fun x hx => h x (List.mem_cons_of_mem _ hx))]
    rfl

theorem forall_ok_of_mapM_ok {α β : Type} (f : α → Except Exception β) (l : List α)
    (gs : List β) (h : l.mapM f = .ok gs) : ∀ x ∈ l, ∃ y, f x = .ok y := by
  induction l generalizing gs with
  | nil => intro x hx; cases hx
  | cons a t ih =>
    rw [List.mapM_cons] at h
    cases ha : f a with
    | error e =>
      rw [ha] at h
      cases h
    | ok y =>
      rw [ha] at h
      cases ht : t.mapM f with
      | error e =>
        rw [ht] at h
        cases h
      | ok ys =>
        intro x hx
        rcases List.mem_cons.mp hx with hxa | hxt
        · exact ⟨y, by rw [hxa, ha]⟩
        · exact ih ys ht x hxt

theorem glyphText_eq_glyphOrEmpty (r : CharRow) (c : Nat) (y : List wchar_t)
    (h : r.glyphText c = .ok y) : r.glyphText c = .ok (r.glyphOrEmpty c) := by
  simp [CharRow.glyphOrEmpty, h]

theorem filter_flatMap_sublist {α β : Type} (p : α → Bool) (f : α → List β) (l : List α) :
    List.Sublist ((l.filter p).flatMap f) (l.flatMap f) := by
  induction l with
  | nil => simp
  | cons a t ih =>
    rw [List.filter_cons, List.flatMap_cons]
    by_cases hp : p a = true
    · rw [if_pos hp, List.flatMap_cons]
      exact List.Sublist.append_left ih _
    · rw [if_neg hp]
      exact List.sublist_append_of_sublist_right ih

theorem GetTextRaw_eq_mapM (r : CharRow) :
    r.GetTextRaw = ((List.range r.size).mapM r.glyphText).map List.flatten := by
  have h := GetTextRaw_loop_eq r r._data.length 0 [] (by omega)
  rw [CharRow.GetTextRaw, h, CharRow.size, List.range_eq_range']
  simp

theorem GetText_eq_mapM (r : CharRow) :
    r.GetText
      = (((List.range r.size).filter (fun c => !r.columnIsTrailing c)).mapM
          r.glyphText).map List.flatten := by
  have h := GetText_loop_eq r r._data.length 0 [] (by omega)
  rw [CharRow.GetText, h, CharRow.size, List.range_eq_range']
  simp

/-- When every glyph of the row can be read, both texts are returned: the raw
text is made of the glyphs of all columns and the text of the glyphs of the
columns that are not trailing. -/
theorem texts_of_readable (r : CharRow)
    (h : ∀ c ∈ List.range r.size, ∃ y, r.glyphText c = .ok y) :
    r.GetTextRaw = .ok ((List.range r.size).flatMap r.glyphOrEmpty)
    ∧ r.GetText
        = .ok (((List.range r.size).filter (fun c => !r.columnIsTrailing c)).flatMap
            r.glyphOrEmpty) := by
  have hall : ∀ c ∈ List.range r.size, r.glyphText c = .ok (r.glyphOrEmpty c) := by
    intro c hc
    obtain ⟨y, hy⟩ := h c hc
    exact glyphText_eq_glyphOrEmpty r c y hy
  constructor
  · rw [GetTextRaw_eq_mapM, mapM_ok_of_forall r.glyphText r.glyphOrEmpty _ hall]
    simp [Except.map, List.flatMap]
  · rw [GetText_eq_mapM, mapM_ok_of_forall r.glyphText r.glyphOrEmpty _
      (fun c hc => hall c (List.mem_of_mem_filter hc))]
    simp [Except.map, List.flatMap]

/-- Counterexample to C20 as stated: `rowStaleTrailing` is a row of width 2 whose
trailing cell has the overflow flag set while the store holds nothing under
its key.  `GetText` skips that column and returns the glyph of column 0, but
`GetTextRaw` throws on reading it, so for this row there is no raw text that
the text could be obtained from or compared in length with. -/
theorem C20_GetTextRaw_throws_where_GetText_returns :
    rowStaleTrailing.size = 2
    ∧ rowStaleTrailing.columnIsTrailing 1 = true
    ∧ rowStaleTrailing.glyphText 1 = .error .not_found
    ∧ rowStaleTrailing.GetText = .ok [0x4E00]
    ∧ rowStaleTrailing.GetTextRaw = .error .not_found
    ∧ ¬ (∃ raw text, rowStaleTrailing.GetTextRaw = .ok raw
          ∧ rowStaleTrailing.GetText = .ok text ∧ text.length ≤ raw.length) := by
  have hraw : rowStaleTrailing.GetTextRaw = .error .not_found := rfl
  refine ⟨rfl, rfl, rfl, rfl, hraw, ?_⟩
  rintro ⟨raw, _, h, _⟩
  rw [hraw] at h
  cases h

/-- C20 as the code has it: on a row without a `Trailing` cell `GetText()` and
`GetTextRaw()` are the same (same text, or same exception); on every row for
which `GetTextRaw()` returns, `GetText()` returns too, the raw text is the
glyphs of all columns in order and the text is the glyphs of the columns that
are not trailing in the same order, so the text is the raw text with exactly
the code units of the trailing columns deleted and is not longer.
`GetTextRaw()` returns exactly when the glyph of every column can be read and
`GetText()` exactly when the glyph of every column that is not trailing can be
read, so `GetTextRaw()` can throw on a trailing column where `GetText()`
returns. -/
theorem C20_GetText_is_GetTextRaw_without_trailing (r : CharRow) :
    ((∀ cell ∈ r._data, cell.DbcsAttr ≠ .Trailing) → r.GetText = r.GetTextRaw)
    ∧ (∀ raw, r.GetTextRaw = .ok raw →
        raw = (List.range r.size).flatMap r.glyphOrEmpty
        ∧ r.GetText
            = .ok (((List.range r.size).filter (fun c => !r.columnIsTrailing c)).flatMap
                r.glyphOrEmpty)
        ∧ ∃ text, r.GetText = .ok text ∧ List.Sublist text raw ∧ text.length ≤ raw.length)
    ∧ ((∀ c, c < r.size → ∃ units, r.glyphText c = .ok units) →
        ∃ raw text, r.GetTextRaw = .ok raw ∧ r.GetText = .ok text
          ∧ List.Sublist text raw ∧ text.length ≤ raw.length)
    ∧ ((∀ cell ∈ r._data, cell.hasOverflow = false) →
        ∃ raw text, r.GetTextRaw = .ok raw ∧ r.GetText = .ok text
          ∧ List.Sublist text raw ∧ text.length ≤ raw.length)
    ∧ (rowWide.GetTextRaw = .ok [0x4E00, 0x4E00, 0x20] ∧ rowWide.GetText = .ok [0x4E00, 0x20])
    ∧ (rowAB.GetTextRaw = .ok [0x20, 97, 98] ∧ rowAB.GetText = .ok [0x20, 97, 98])
    ∧ ((∃ raw, r.GetTextRaw = .ok raw)
        ↔ ∀ c, c < r.size → ∃ units, r.glyphText c = .ok units)
    ∧ ((∃ text, r.GetText = .ok text)
        ↔ ∀ c, c < r.size → r.columnIsTrailing c = false →
            ∃ units, r.glyphText c = .ok units) := by
  have hsub := filter_flatMap_sublist (fun c => !r.columnIsTrailing c) r.glyphOrEmpty
    (List.range r.size)
  have hrawread : ∀ raw, r.GetTextRaw = .ok raw →
      ∀ c ∈ List.range r.size, ∃ y, r.glyphText c = .ok y := by
    intro raw hraw
    rw [GetTextRaw_eq_mapM] at hraw
    cases hm : (List.range r.size).mapM r.glyphText with
    | error e =>
      rw [hm] at hraw
      cases hraw
    | ok gs => exact forall_ok_of_mapM_ok r.glyphText _ gs hm
  refine ⟨?_, ?_, ?_, ?_, ⟨rfl, rfl⟩, ⟨rfl, rfl⟩, ?_, ?_⟩
  · intro hno
    have hfilter : (List.range r.size).filter (fun c => !r.columnIsTrailing c)
        = List.range r.size := by
      rw [List.filter_eq_self]
      intro c _
      simp only [CharRow.columnIsTrailing]
      cases hget : r._data[c]? with
      | none => rfl
      | some cell =>
        have hne := hno cell (List.getElem?_mem hget)
        simp only [Bool.not_eq_true', CharRowCell.DbcsAttr] at hne ⊢
        cases hrole : cell.dbcsRole with
        | Single => rfl
        | Leading => rfl
        | Trailing => exact absurd hrole hne
    rw [GetText_eq_mapM, GetTextRaw_eq_mapM, hfilter]
  · intro raw hraw
    have hread : ∀ c ∈ List.range r.size, ∃ y, r.glyphText c = .ok y := by
      rw [GetTextRaw_eq_mapM] at hraw
      cases hm : (List.range r.size).mapM r.glyphText with
      | error e =>
        rw [hm] at hraw
        cases hraw
      | ok gs => exact forall_ok_of_mapM_ok r.glyphText _ gs hm
    obtain ⟨hr, ht⟩ := texts_of_readable r hread
    rw [hr] at hraw
    cases hraw
    exact ⟨rfl, ht, _, ht, hsub, hsub.length_le⟩
  · intro hall
    obtain ⟨hr, ht⟩ := texts_of_readable r (fun c hc => hall c (List.mem_range.mp hc))
    exact ⟨_, _, hr, ht, hsub, hsub.length_le⟩
  · intro hov
    have hread : ∀ c ∈ List.range r.size, ∃ y, r.glyphText c = .ok y := by
      intro c hc
      have hlt : c < r._data.length := by simpa [CharRow.size] using hc
      exact ⟨_, glyphText_of_inline r c r._data[c] (List.getElem?_eq_getElem hlt)
        (hov _ (List.getElem_mem hlt))⟩
    obtain ⟨hr, ht⟩ := texts_of_readable r hread
    exact ⟨_, _, hr, ht, hsub, hsub.length_le⟩
  · constructor
    · rintro ⟨raw, hraw⟩ c hc
      exact hrawread raw hraw c (List.mem_range.mpr hc)
    · intro hall
      exact ⟨_, (texts_of_readable r (fun c hc => hall c (List.mem_range.mp hc))).1⟩
  · constructor
    · rintro ⟨text, htext⟩ c hc hnt
      rw [GetText_eq_mapM] at htext
      cases hm : ((List.range r.size).filter (fun c => !r.columnIsTrailing c)).mapM
          r.glyphText with
      | error e =>
        rw [hm] at htext
        cases htext
      | ok gs =>
        exact forall_ok_of_mapM_ok r.glyphText _ gs hm c
          (List.mem_filter.mpr ⟨List.mem_range.mpr hc, by rw [hnt]; rfl⟩)
    · intro hall
      have hok : ∀ c ∈ (List.range r.size).filter (fun c => !r.columnIsTrailing c),
          r.glyphText c = .ok (r.glyphOrEmpty c) := by
        intro c hc
        obtain ⟨hmem, hnt⟩ := List.mem_filter.mp hc
        have hfalse : r.columnIsTrailing c = false := by
          cases hct : r.columnIsTrailing c with
          | false => rfl
          | true =>
            rw [hct] at hnt
            cases hnt
        obtain ⟨y, hy⟩ := hall c (List.mem_range.mp hmem) hfalse
        exact glyphText_eq_glyphOrEmpty r c y hy
      refine ⟨(((List.range r.size).filter (fun c => !r.columnIsTrailing c)).map
        r.glyphOrEmpty).flatten, ?_⟩
      rw [GetText_eq_mapM, mapM_ok_of_forall r.glyphText r.glyphOrEmpty _ hok]
      rfl

/-! ## The pairing of double-width halves -/

theorem pairedAt_iff (roles : List DbcsAttribute) (i : Nat) :
    pairedAt roles i = true
      ↔ (roles[i]? = some .Trailing → i ≠ 0 ∧ roles[i - 1]? = some .Leading)
        ∧ (roles[i]? = some .Leading → roles[i + 1]? = some .Trailing) := by
  unfold pairedAt
  cases h : roles[i]? with
  | none => simp
  | some a => cases a <;> simp

theorem IsPaired_iff (r : CharRow) : r.IsPaired = true ↔ PairedRoles r.roles := by
  unfold CharRow.IsPaired PairedRoles
  rw [List.all_eq_true]
  constructor
  · intro h i
    by_cases hi : i < r.size
    · exact (pairedAt_iff r.roles i).mp (h i (List.mem_range.mpr hi))
    · have hnone : r.roles[i]? = none := by
        apply List.getElem?_eq_none
        simp only [CharRow.roles, List.length_map]
        simp only [CharRow.size] at hi
        omega
      rw [hnone]
      exact ⟨fun h => (by cases h), fun h => (by cases h)⟩
  · intro h i _
    exact (pairedAt_iff r.roles i).mpr (h i)

theorem PairedRoles_replicate_Single (n : Nat) :
    PairedRoles (List.replicate n DbcsAttribute.Single) := by
  intro i
  rw [List.getElem?_replicate]
  constructor <;> intro h <;> split at h <;> cases h

theorem PairedRoles_append_Single (roles : List DbcsAttribute) (k : Nat)
    (h : PairedRoles roles) :
    PairedRoles (roles ++ List.replicate k DbcsAttribute.Single) := by
  intro i
  by_cases hi : i < roles.length
  · rw [List.getElem?_append_left hi]
    constructor
    · intro ht
      obtain ⟨hne, hprev⟩ := (h i).1 ht
      exact ⟨hne, by rw [List.getElem?_append_left (by omega)]; exact hprev⟩
    · intro hl
      have hnext := (h i).2 hl
      have hlt : i + 1 < roles.length := by
        by_contra hge
        rw [List.getElem?_eq_none (by omega)] at hnext
        cases hnext
      rw [List.getElem?_append_left hlt]
      exact hnext
  · rw [List.getElem?_append_right (by omega), List.getElem?_replicate]
    constructor <;> intro h <;> split at h <;> cases h

theorem PairedRoles_take_iff (roles : List DbcsAttribute) (n : Nat) (h : PairedRoles roles) :
    PairedRoles (roles.take n)
      ↔ ¬ (0 < n ∧ n < roles.length ∧ roles[n - 1]? = some .Leading) := by
  constructor
  · rintro hp ⟨hpos, hlt, hlead⟩
    have hcut : (roles.take n)[n - 1]? = some DbcsAttribute.Leading := by
      rw [List.getElem?_take_of_lt (by omega)]
      exact hlead
    have hnext := (hp (n - 1)).2 hcut
    have hidx : n - 1 + 1 = n := by omega
    rw [hidx, List.getElem?_take_eq_none (Nat.le_refl n)] at hnext
    cases hnext
  · intro hno i
    by_cases hi : i < n
    · rw [List.getElem?_take_of_lt hi]
      constructor
      · intro ht
        obtain ⟨hne, hprev⟩ := (h i).1 ht
        exact ⟨hne, by rw [List.getElem?_take_of_lt (by omega)]; exact hprev⟩
      · intro hl
        have hnext := (h i).2 hl
        have hlen : i + 1 < roles.length := by
          by_contra hge
          rw [List.getElem?_eq_none (by omega)] at hnext
          cases hnext
        by_cases hin : i + 1 < n
        · rw [List.getElem?_take_of_lt hin]
          exact hnext
        · have hn : n = i + 1 := by omega
          exact absurd ⟨by omega, by omega, by rw [hn]; simpa using hl⟩ hno
    · rw [List.getElem?_take_eq_none (by omega)]
      exact ⟨fun h => (by cases h), fun h => (by cases h)⟩

theorem PairedRoles_set_Single_iff (roles : List DbcsAttribute) (c : Nat)
    (hc : c < roles.length) (h : PairedRoles roles) :
    PairedRoles (roles.set c .Single) ↔ roles[c]? = some .Single := by
  constructor
  · intro hp
    have hget : roles[c]? = some roles[c] := List.getElem?_eq_getElem hc
    cases hrole : roles[c] with
    | Single => rw [hget, hrole]
    | Leading =>
      rw [hrole] at hget
      have hnext := (h c).2 hget
      have hnext2 : (roles.set c .Single)[c + 1]? = some DbcsAttribute.Trailing := by
        rw [List.getElem?_set_ne (by omega)]
        exact hnext
      obtain ⟨_, hprev⟩ := (hp (c + 1)).1 hnext2
      rw [Nat.add_sub_cancel, List.getElem?_set_self hc] at hprev
      cases hprev
    | Trailing =>
      rw [hrole] at hget
      obtain ⟨hne, hprev⟩ := (h c).1 hget
      have hprev2 : (roles.set c .Single)[c - 1]? = some DbcsAttribute.Leading := by
        rw [List.getElem?_set_ne (by omega)]
        exact hprev
      have hnext := (hp (c - 1)).2 hprev2
      have hidx : c - 1 + 1 = c := by omega
      rw [hidx, List.getElem?_set_self hc] at hnext
      cases hnext
  · intro hs
    have hsame : roles.set c .Single = roles := by
      apply List.ext_getElem?
      intro j
      by_cases hj : c = j
      · rw [← hj, List.getElem?_set_self hc, hs]
      · rw [List.getElem?_set_ne hj]
    rw [hsame]
    exact h

theorem roles_length (r : CharRow) : r.roles.length = r.size := by
  simp [CharRow.roles, CharRow.size]

theorem Reset_roles (r : CharRow) :
    r.Reset.roles = List.replicate r.size DbcsAttribute.Single := by
  rw [CharRow.roles, Reset_data, List.map_replicate]
  rfl

theorem ClearGlyph_roles (r : CharRow) (c : Nat) (next : CharRow)
    (h : r.ClearGlyph c = .ok next) : next.roles = r.roles := by
  by_cases hc : c < r._data.length
  · rw [ClearGlyph_of_lt r c hc] at h
    cases h
    simp only [CharRow.roles, List.map_set]
    apply List.ext_getElem?
    intro j
    by_cases hj : c = j
    · rw [← hj, List.getElem?_set_self (by simpa using hc), List.getElem?_map,
        List.getElem?_eq_getElem hc]
      rfl
    · rw [List.getElem?_set_ne hj]
  · have herr := (access_error_of_ge r c (by simp only [CharRow.size]; omega)).2.2.2.2.2
    rw [herr] at h
    cases h

theorem ClearCell_roles (r : CharRow) (c : Nat) (next : CharRow)
    (h : r.ClearCell c = .ok next) :
    c < r.roles.length ∧ next.roles = r.roles.set c .Single := by
  by_cases hc : c < r._data.length
  · rw [ClearCell_of_lt r c hc] at h
    cases h
    refine ⟨by simpa [CharRow.roles] using hc, ?_⟩
    simp only [CharRow.roles, List.map_set]
    rfl
  · have herr := (access_error_of_ge r c (by simp only [CharRow.size]; omega)).2.2.2.2.1
    rw [herr] at h
    cases h

theorem Resize_roles (max_size : Nat) (r : CharRow) (n : Nat) :
    (r.Resize max_size n).2.roles = r.roles
    ∨ (r.Resize max_size n).2.roles
        = r.roles.take n ++ List.replicate (n - r.roles.length) DbcsAttribute.Single := by
  by_cases hc : n ≤ r._data.length ∨ n ≤ max_size
  · right
    rw [Resize_ok max_size r n hc]
    simp only [CharRow.roles, vector_resize, List.map_append, List.map_take, List.map_replicate,
      List.length_map]
    rfl
  · left
    rw [Resize_fail max_size r n hc]

theorem Resize_roles_of_lt (max_size : Nat) (r : CharRow) (n : Nat) (h : n < r.size) :
    (r.Resize max_size n).2.roles = r.roles.take n := by
  rw [CharRow.size] at h
  rw [Resize_ok max_size r n (Or.inl (by omega))]
  simp only [CharRow.roles, vector_resize, List.map_append, List.map_take, List.map_replicate]
  have hz : n - r._data.length = 0 := by omega
  rw [hz]
  simp

/-- C15 as the code has it: on a row that satisfies the pairing property,
`Reset`, `ClearGlyph`, `SetWrapForced`, `SetDoubleBytePadded` and `swap` (with
another such row) leave rows that satisfy it; `Resize(n)` does so exactly when
it does not cut between a `Leading` cell and its `Trailing` cell, in particular
whenever `n >= size()`; `ClearCell(c)` does so exactly when the cell at `c` is a
`Single` cell. -/
theorem C15_pairing_kept_unless_a_pair_is_split (r : CharRow) (h : r.IsPaired = true) :
    r.Reset.IsPaired = true
    ∧ (∀ c next, r.ClearGlyph c = .ok next → next.IsPaired = true)
    ∧ (∀ b, (r.SetWrapForced b).IsPaired = true ∧ (r.SetDoubleBytePadded b).IsPaired = true)
    ∧ (∀ other : CharRow, other.IsPaired = true →
        (r.swap other).1.IsPaired = true ∧ (r.swap other).2.IsPaired = true)
    ∧ (∀ max_size n, (r.Resize max_size n).2.IsPaired = true
        ↔ ¬ (0 < n ∧ n < r.size ∧ r.roles[n - 1]? = some .Leading))
    ∧ (∀ max_size n, r.size ≤ n → (r.Resize max_size n).2.IsPaired = true)
    ∧ (∀ c next, r.ClearCell c = .ok next →
        (next.IsPaired = true ↔ r.roles[c]? = some .Single)) := by
  have hp : PairedRoles r.roles := (IsPaired_iff r).mp h
  have hgrow : ∀ max_size n, r.size ≤ n → (r.Resize max_size n).2.IsPaired = true := by
    intro max_size n hn
    rw [IsPaired_iff]
    rcases Resize_roles max_size r n with hsame | hnew
    · rw [hsame]; exact hp
    · rw [hnew, List.take_of_length_le (by rw [roles_length]; exact hn)]
      exact PairedRoles_append_Single _ _ hp
  refine ⟨?_, ?_, ?_, ?_, ?_, hgrow, ?_⟩
  · rw [IsPaired_iff, Reset_roles]
    exact PairedRoles_replicate_Single _
  · intro c next hnext
    rw [IsPaired_iff, ClearGlyph_roles r c next hnext]
    exact hp
  · intro b
    exact ⟨h, h⟩
  · intro other hother
    exact ⟨hother, h⟩
  · intro max_size n
    by_cases hn : n < r.size
    · rw [IsPaired_iff, Resize_roles_of_lt max_size r n hn, PairedRoles_take_iff _ _ hp,
        roles_length]
    · constructor
      · rintro _ ⟨_, hlt, _⟩
        exact hn hlt
      · intro _
        exact hgrow max_size n (by omega)
  · intro c next hnext
    obtain ⟨hc, hroles⟩ := ClearCell_roles r c next hnext
    rw [IsPaired_iff, hroles]
    exact PairedRoles_set_Single_iff _ _ hc hp

/-- Witness for C15: the row with a double-width glyph in columns 0 and 1 and
three blank columns satisfies the pairing property; cutting it to width 1
breaks the property and cutting it to width 2 keeps it. -/
theorem C15_pairing_kept_unless_a_pair_is_split_witness :
    rowWide.IsPaired = true
    ∧ rowWide.Reset.IsPaired = true
    ∧ ((rowWide.Resize 100 2).2.IsPaired = true
        ↔ ¬ (0 < 2 ∧ 2 < rowWide.size ∧ rowWide.roles[2 - 1]? = some .Leading)) :=
  ⟨by decide,
   (C15_pairing_kept_unless_a_pair_is_split rowWide (by decide)).1,
   (C15_pairing_kept_unless_a_pair_is_split rowWide (by decide)).2.2.2.2.1 100 2⟩

/-- Counterexample to C15 as stated: the row `Leading, Trailing` satisfies the
pairing property, yet `ClearCell(0)` leaves a `Trailing` cell without its
`Leading` cell, `ClearCell(1)` leaves a `Leading` cell without its `Trailing`
cell, and `Resize(1)` leaves a row that ends in an unpaired `Leading` cell. -/
theorem C15_pairing_broken_by_ClearCell_and_Resize :
    rowPair.IsPaired = true
    ∧ (∃ next, rowPair.ClearCell 0 = .ok next ∧ next.IsPaired = false)
    ∧ (∃ next, rowPair.ClearCell 1 = .ok next ∧ next.IsPaired = false)
    ∧ (rowPair.Resize 100 1).1 = HRESULT.S_OK
    ∧ (rowPair.Resize 100 1).2.IsPaired = false :=
  ⟨by decide, ⟨_, rfl, by decide⟩, ⟨_, rfl, by decide⟩, by decide, by decide⟩

/-! ## Erasing a cell and the overflow store -/

/-- C16 as the code has it: at a column `c < size()`, `ClearCell(c)` and
`ClearGlyph(c)` clear the overflow flag of the cell and do not touch the
overflow store: the store, and the key of the column, are the same after the
call, so an entry that was stored under the key of the column is still stored
under it. -/
theorem C16_erasing_clears_the_flag_not_the_store (r : CharRow) (c : Nat) (h : c < r.size) :
    ∃ afterCell afterGlyph,
      r.ClearCell c = .ok afterCell ∧ r.ClearGlyph c = .ok afterGlyph
      ∧ (∀ cell, afterCell._data[c]? = some cell → cell.hasOverflow = false)
      ∧ (∀ cell, afterGlyph._data[c]? = some cell → cell.hasOverflow = false)
      ∧ afterCell.GetUnicodeStorage = r.GetUnicodeStorage
      ∧ afterGlyph.GetUnicodeStorage = r.GetUnicodeStorage
      ∧ afterCell.GetStorageKey c = r.GetStorageKey c
      ∧ afterGlyph.GetStorageKey c = r.GetStorageKey c
      ∧ (∀ key, r.GetStorageKey c = .ok key → r.GetUnicodeStorage.contains key = true →
          afterCell.GetUnicodeStorage.contains key = true
          ∧ afterGlyph.GetUnicodeStorage.contains key = true) := by
  rw [CharRow.size] at h
  refine ⟨_, _, ClearCell_of_lt r c h, ClearGlyph_of_lt r c h, ?_, ?_, rfl, rfl, rfl, rfl, ?_⟩
  · intro cell hcell
    simp only [] at hcell
    rw [List.getElem?_set_self h] at hcell
    cases hcell
    rfl
  · intro cell hcell
    simp only [] at hcell
    rw [List.getElem?_set_self h] at hcell
    cases hcell
    rfl
  · intro key _ hkey
    exact ⟨hkey, hkey⟩

/-- Witness for C16: column 0 of the row whose owner keeps U+0301 in the
overflow store for that column. -/
theorem C16_erasing_clears_the_flag_not_the_store_witness :
    0 < rowOverflow.size
    ∧ ∃ afterCell afterGlyph,
      rowOverflow.ClearCell 0 = .ok afterCell ∧ rowOverflow.ClearGlyph 0 = .ok afterGlyph
      ∧ (∀ cell, afterCell._data[0]? = some cell → cell.hasOverflow = false)
      ∧ (∀ cell, afterGlyph._data[0]? = some cell → cell.hasOverflow = false)
      ∧ afterCell.GetUnicodeStorage = rowOverflow.GetUnicodeStorage
      ∧ afterGlyph.GetUnicodeStorage = rowOverflow.GetUnicodeStorage
      ∧ afterCell.GetStorageKey 0 = rowOverflow.GetStorageKey 0
      ∧ afterGlyph.GetStorageKey 0 = rowOverflow.GetStorageKey 0
      ∧ (∀ key, rowOverflow.GetStorageKey 0 = .ok key →
          rowOverflow.GetUnicodeStorage.contains key = true →
          afterCell.GetUnicodeStorage.contains key = true
          ∧ afterGlyph.GetUnicodeStorage.contains key = true) :=
  ⟨by decide, C16_erasing_clears_the_flag_not_the_store rowOverflow 0 (by decide)⟩

/-- Counterexample to C16 as stated: in `rowOverflow` the cell of column 0 has its
overflow flag set and the store holds an entry under the key of column 0;
after `ClearCell(0)`, and after `ClearGlyph(0)`, the flag of the cell is false
and the store still holds the entry under that key. -/
theorem C16_overflow_entry_survives_erasing :
    rowOverflow._data[0]?.map CharRowCell.hasOverflow = some true
    ∧ rowOverflow.GetStorageKey 0 = .ok { X := 0, Y := 7 }
    ∧ rowOverflow.GetUnicodeStorage.contains { X := 0, Y := 7 } = true
    ∧ (∃ next, rowOverflow.ClearCell 0 = .ok next
        ∧ next._data[0]?.map CharRowCell.hasOverflow = some false
        ∧ next.GetStorageKey 0 = .ok { X := 0, Y := 7 }
        ∧ next.GetUnicodeStorage.contains { X := 0, Y := 7 } = true
        ∧ next.GetUnicodeStorage.GetText { X := 0, Y := 7 } = .ok [0x301])
    ∧ (∃ next, rowOverflow.ClearGlyph 0 = .ok next
        ∧ next._data[0]?.map CharRowCell.hasOverflow = some false
        ∧ next.GetStorageKey 0 = .ok { X := 0, Y := 7 }
        ∧ next.GetUnicodeStorage.contains { X := 0, Y := 7 } = true
        ∧ next.GetUnicodeStorage.GetText { X := 0, Y := 7 } = .ok [0x301]) :=
  ⟨by decide, rfl, by decide, ⟨_, rfl, by decide, rfl, by decide, rfl⟩,
   ⟨_, rfl, by decide, rfl, by decide, rfl⟩⟩

end CharRowModel
